import Mathlib

/-!
# Reddalert — verification of the ingest → match → dispatch pipeline

Shallow embedding of the core services of the `reddalert` backend
(`app/services/normalizer.py`, `matcher.py`, `match_engine.py`,
`deduplicator.py`, `poller.py`, `alert_dispatcher.py`) and proofs of the
behavioural claims about them.

Conventions of the embedding:
* Python strings are `List Char` (`Str`); Python string methods and the
  specific regular expressions used by the source are translated into
  explicit scanning functions over `List Char`.  Recursive scanners use a
  `fuel` argument set to the input length at the top entry point; every
  scanner step consumes at least one input character, so the fuel never
  runs out on the actual calls.
* `datetime`s are naturals (seconds); `timedelta` comparisons become
  `Nat` comparisons.
* Database rows are structures, SQLAlchemy queries become `List.filter`,
  and the I/O boundary (HTTP responses of the webhook target) is an
  oracle function passed as a parameter.
* Python `float` appears only in `proximity_score`, which never feeds a
  branch; it is modelled exactly with `ℚ`.
-/

/-- Python strings, modelled as lists of characters. -/
abbrev Str := List Char

/-- Python's `\s` / `str.isspace` over the ASCII range (space, tab,
newline, carriage return, vertical tab, form feed).  The source only ever
meets Reddit text; non-ASCII whitespace is out of scope of the model. -/
def isPySpace (c : Char) : Bool :=
  c = ' ' || c = '\t' || c = '\n' || c = '\r' || c = '\x0b' || c = '\x0c'

/-- Python `str.lower` per character (ASCII `A`–`Z`). -/
def lowerChar (c : Char) : Char :=
  if 65 ≤ c.toNat ∧ c.toNat ≤ 90 then Char.ofNat (c.toNat + 32) else c

/-- Python `str.lower` on a string. -/
def pyLower (s : Str) : Str := s.map lowerChar

/-- `lowerChar` is idempotent: lowering an already-lowered character does
nothing. -/
theorem lowerChar_idem (c : Char) : lowerChar (lowerChar c) = lowerChar c := by
  by_cases h : 65 ≤ c.toNat ∧ c.toNat ≤ 90
  · have h1 : lowerChar c = Char.ofNat (c.toNat + 32) := by
      unfold lowerChar; rw [if_pos h]
    have hvalid : (c.toNat + 32).isValidChar := Or.inl (by omega)
    have hval : (Char.ofNat (c.toNat + 32)).toNat = c.toNat + 32 := by
      rw [Char.ofNat, dif_pos hvalid]; rfl
    rw [h1]
    unfold lowerChar
    rw [if_neg (by rw [hval]; omega)]
  · have h1 : lowerChar c = c := by unfold lowerChar; rw [if_neg h]
    rw [h1, h1]

/-- max of a list of naturals (`max(...)` in Python, on a nonempty list;
`0` on the empty list, which the source never passes). -/
def listMax (l : List Nat) : Nat := l.foldl Nat.max 0

/-- min of a list of naturals (`min(...)` in Python, on a nonempty list). -/
def listMin (l : List Nat) : Nat :=
  match l with
  | [] => 0
  | x :: xs => xs.foldl Nat.min x

/-! ## Matcher (`app/services/matcher.py`) -/

/-- `KeywordConfig` dataclass (`matcher.py`). -/
structure KeywordConfig where
  phrases : List (List Str)
  exclusions : List Str := []
  proximity_window : Nat := 15
  require_order : Bool := false
  use_stemming : Bool := false
  exclusion_scope : Str := "anywhere".toList
deriving Repr, DecidableEq

/-- `MatchResult` dataclass (`matcher.py`). -/
structure MatchResult where
  matched_phrase : Str
  span_start : Nat
  span_end : Nat
  snippet : Str
  proximity_score : ℚ
  also_matched : List Str := []
deriving Repr, DecidableEq

/-- `_STEM_SUFFIXES` (`matcher.py`). -/
def STEM_SUFFIXES : List Str :=
  ["ational".toList, "tional".toList, "enci".toList, "anci".toList,
   "izer".toList, "ation".toList, "ness".toList,
   "ment".toList, "ful".toList, "less".toList, "ive".toList, "ous".toList,
   "ing".toList, "ble".toList, "ally".toList,
   "ity".toList, "ies".toList, "ied".toList, "ers".toList, "est".toList,
   "ely".toList, "ess".toList,
   "ly".toList, "er".toList, "ed".toList, "al".toList, "es".toList,
   "en".toList, "ty".toList, "ss".toList,
   "s".toList]

/-- `word.endswith(suffix)` for `List Char`. -/
def endsWith (word suffix : Str) : Bool := suffix.isSuffixOf word

/-- `_simple_stem` (`matcher.py`): strip the first suffix from
`_STEM_SUFFIXES` leaving a stem of ≥ 2 chars, then undouble a trailing
doubled consonant; words of ≤ 3 chars pass through. -/
def simple_stem (word : Str) : Str :=
  if word.length ≤ 3 then word
  else
    match STEM_SUFFIXES.find? (fun suf =>
        endsWith word suf && decide (2 ≤ word.length - suf.length)) with
    | some suf =>
        let stem := word.take (word.length - suf.length)
        if h : 2 ≤ stem.length then
          let a := stem.getLast (by intro hn; simp [hn] at h)
          let b := (stem.dropLast).getLast?.getD a
          if a = b ∧ ¬ (a = 'a' ∨ a = 'e' ∨ a = 'i' ∨ a = 'o' ∨ a = 'u') then
            stem.dropLast
          else stem
        else stem
    | none => word

/-- Python `text.find(token, start)`: smallest index `i ≥ start` at which
`token` occurs in `text`, if any.  (Models the builtin by its meaning.) -/
def strFindFrom (text token : Str) (start : Nat) : Option Nat :=
  (List.range (text.length + 1)).find? (fun i =>
    decide (start ≤ i) && token.isPrefixOf (text.drop i))

/-- `_build_token_index` (`matcher.py`).  The regex fallback searches for
`re.escape(token)` — the same literal `text.find` just failed on — so it
never succeeds when `find` failed; the source then keeps `search_start`. -/
def build_token_index (tokens : List Str) (text : Str) : List Nat :=
  (tokens.foldl (fun (acc : List Nat × Nat) token =>
      let idx := match strFindFrom text token acc.2 with
        | some i => i
        | none => acc.2
      (acc.1 ++ [idx], idx + token.length))
    ([], 0)).1

/-- The slice-and-ellipsis tail of `_generate_snippet` (`matcher.py`
lines 106–114): `text[start:end]`, then `"..." + snippet[3:]` when
`start > 0` and `snippet[:-3] + "..."` when `end < len(text)`. -/
def snippet_edges (text : Str) (start endPos : Nat) : Str :=
  let snippet := (text.drop start).take (endPos - start)
  let snippet2 :=
    if 0 < start then "...".toList ++ snippet.drop 3 else snippet
  if endPos < text.length then
    snippet2.take (snippet2.length - 3) ++ "...".toList
  else snippet2

/-- `_generate_snippet` (`matcher.py`): a `length`-char window centred on
the match midpoint; when `end = start + length` overruns the text the
source clamps `end` to `len(text)` and re-anchors
`start = max(0, end − length)`. -/
def generate_snippet (text : Str) (span_start span_end : Nat)
    (length : Nat := 200) : Str :=
  if text.length ≤ length then text
  else
    let match_center := (span_start + span_end) / 2
    let half := length / 2
    let start0 := match_center - half
    let end0 := start0 + length
    if text.length < end0 then
      snippet_edges text (text.length - length) text.length
    else
      snippet_edges text start0 end0

/-- `_calculate_proximity_score` (`matcher.py`).  `total_tokens` is unused
by the source body and omitted. -/
def calculate_proximity_score (token_positions : List Nat) : ℚ :=
  if token_positions.length ≤ 1 then 1
  else
    let span := listMax token_positions - listMin token_positions
    let min_span := token_positions.length - 1
    if span ≤ min_span then 1
    else max (1/10 : ℚ) ((min_span : ℚ) / (span : ℚ))

/-- `max(all_positions) - min(all_positions)` as used in
`_find_combination`. -/
def spanOf (l : List Nat) : Nat := listMax l - listMin l

/-- `_find_combination` (`matcher.py`): depth-first search for one valid
position per remaining phrase token.  `token_positions` here is the list
of position lists still to be assigned (the source's
`token_positions[token_idx:]`); `current_combo` is nonempty on every
reachable call. -/
def find_combination (token_positions : List (List Nat))
    (proximity_window : Nat) (require_order : Bool)
    (current_combo : List Nat) : Option (List Nat) :=
  match token_positions with
  | [] => some current_combo
  | positions :: rest =>
      positions.findSome? (fun pos =>
        let all_positions := current_combo ++ [pos]
        if proximity_window ≤ spanOf all_positions then none
        else if require_order ∧ pos ≤ (current_combo.getLastD 0) then none
        else if pos ∈ current_combo then none
        else find_combination rest proximity_window require_order all_positions)

/-- Positions of token `t` in `ts` (the comprehension
`[i for i, t in enumerate(stemmed_tokens) if t == pt]`). -/
def positionsOf (ts : List Str) (t : Str) : List Nat :=
  ((ts.enum).filter (fun p => p.2 = t)).map (·.1)

/-- `_find_phrase_matches` (`matcher.py`).  An empty phrase never reaches
this function (the caller skips it); the source would raise on it. -/
def find_phrase_matches (stemmed_tokens : List Str)
    (phrase_stemmed : List Str) (proximity_window : Nat)
    (require_order : Bool) : List (List Nat) :=
  match phrase_stemmed with
  | [] => []
  | [target] => (positionsOf stemmed_tokens target).map (fun i => [i])
  | _ =>
      let token_positions := phrase_stemmed.map (positionsOf stemmed_tokens)
      if token_positions.any (· = []) then []
      else
        match token_positions with
        | [] => []
        | p0 :: prest =>
            p0.filterMap (fun anchor_pos =>
              find_combination prest proximity_window require_order [anchor_pos])

/-- `_has_proximity_exclusion` (`matcher.py`). -/
def has_proximity_exclusion (stemmed_tokens tokens : List Str)
    (matched_indices : List Nat) (exclusions : List Str)
    (window : Nat) (use_stemming : Bool) : Bool :=
  let exclusion_set :=
    if use_stemming then exclusions.map (fun e => simple_stem (pyLower e))
    else exclusions.map pyLower
  let check_tokens := if use_stemming then stemmed_tokens else tokens
  let match_min := listMin matched_indices
  let match_max := listMax matched_indices
  let window_start := match_min - window
  let window_end := min check_tokens.length (match_max + window + 1)
  (List.range' window_start (window_end - window_start)).any
    (fun i => (check_tokens.getD i []) ∈ exclusion_set)

/-- `NormalizedResult` dataclass (`normalizer.py`). -/
structure NormalizedResult where
  normalized_text : Str
  tokens : List Str := []
  sentences : List Str := []
deriving Repr, DecidableEq

/-- The content tokens after optional stemming (`find_matches`,
`matcher.py` lines 165–169). -/
def content_stemmed_tokens (tokens : List Str) (keyword : KeywordConfig) :
    List Str :=
  if keyword.use_stemming then tokens.map simple_stem else tokens

/-- The up-front "anywhere"-scope exclusion short-circuit of
`find_matches` (`matcher.py` lines 171–180): true when the whole rule is
blocked. -/
def anywhere_excluded (tokens stemmed_tokens : List Str)
    (keyword : KeywordConfig) : Bool :=
  keyword.exclusions ≠ [] ∧ keyword.exclusion_scope = "anywhere".toList ∧
    (if keyword.use_stemming then
      stemmed_tokens.any
        (· ∈ keyword.exclusions.map (fun e => simple_stem (pyLower e)))
    else
      tokens.any (· ∈ keyword.exclusions.map pyLower))

/-- The `MatchResult` built for one phrase occurrence (`find_matches`,
`matcher.py` lines 216–231). -/
def occurrence_result (text : Str) (tokens : List Str)
    (token_offsets : List Nat) (phrase_tokens : List Str)
    (matched_token_indices : List Nat) : MatchResult :=
  let span_start := token_offsets.getD (matched_token_indices.headD 0) 0
  let last_idx := matched_token_indices.getLastD 0
  let span_end :=
    token_offsets.getD last_idx 0 + (tokens.getD last_idx []).length
  { matched_phrase := (phrase_tokens.intersperse " ".toList).flatten
    span_start := span_start
    span_end := span_end
    snippet := generate_snippet text span_start span_end
    proximity_score := calculate_proximity_score matched_token_indices }

/-- The per-phrase body of `find_matches`'s main loop (`matcher.py`
lines 184–231): occurrences of one phrase, filtered by proximity-scope
exclusions, rendered into `MatchResult`s. -/
def phrase_results (text : Str) (tokens stemmed_tokens : List Str)
    (token_offsets : List Nat) (keyword : KeywordConfig)
    (phrase_tokens : List Str) : List MatchResult :=
  if phrase_tokens = [] then []
  else
    (find_phrase_matches stemmed_tokens
        (if keyword.use_stemming then
          (phrase_tokens.map pyLower).map simple_stem
         else phrase_tokens.map pyLower)
        keyword.proximity_window keyword.require_order).filterMap
      (fun matched_token_indices =>
        if keyword.exclusions ≠ [] ∧
            keyword.exclusion_scope = "proximity".toList ∧
            has_proximity_exclusion stemmed_tokens tokens
              matched_token_indices keyword.exclusions
              keyword.proximity_window keyword.use_stemming then
          none
        else
          some (occurrence_result text tokens token_offsets phrase_tokens
            matched_token_indices))

/-- `find_matches` (`matcher.py`): all matches of one keyword rule in one
piece of normalized content.  The source's local variables `tokens`,
`text`, `token_offsets`, `stemmed_tokens` are inlined. -/
def find_matches (content : NormalizedResult) (keyword : KeywordConfig) :
    List MatchResult :=
  if content.normalized_text = [] ∨ content.tokens = [] then []
  else if anywhere_excluded content.tokens
      (content_stemmed_tokens content.tokens keyword) keyword then []
  else
    keyword.phrases.flatMap
      (phrase_results content.normalized_text content.tokens
        (content_stemmed_tokens content.tokens keyword)
        (build_token_index content.tokens content.normalized_text) keyword)

/-! ## Matcher lemmas: window monotonicity and the snippet formula -/

/-- `findSome?` succeeds iff it succeeds on some element. -/
theorem findSome?_isSome_iff {α β : Type} (f : α → Option β) (l : List α) :
    (l.findSome? f).isSome ↔ ∃ x ∈ l, (f x).isSome := by
  induction l with
  | nil => simp [List.findSome?]
  | cons a l ih =>
    rw [List.findSome?]
    cases h : f a <;> simp [h, ih]

/-- The depth-first combination search is monotone in the proximity
window: any search that succeeds at window `W` succeeds at any `W' ≥ W`
(a combination with span `< W` also has span `< W'`; the ordering and
distinctness checks do not mention the window). -/
theorem find_combination_mono {W W' : Nat} (hW : W ≤ W') (ro : Bool) :
    ∀ (tps : List (List Nat)) (combo : List Nat),
    (find_combination tps W ro combo).isSome →
    (find_combination tps W' ro combo).isSome := by
  intro tps
  induction tps with
  | nil => intro combo h; rw [find_combination] at h ⊢; exact h
  | cons ps rest ih =>
    intro combo h
    rw [find_combination] at h ⊢
    obtain ⟨pos, hmem, hsome⟩ := (findSome?_isSome_iff _ _).1 h
    refine (findSome?_isSome_iff _ _).2 ⟨pos, hmem, ?_⟩
    simp only [] at hsome ⊢
    by_cases h1 : W ≤ spanOf (combo ++ [pos])
    · rw [if_pos h1] at hsome; simp at hsome
    · rw [if_neg h1] at hsome
      by_cases h2 : ro = true ∧ pos ≤ combo.getLastD 0
      · rw [if_pos h2] at hsome; simp at hsome
      · rw [if_neg h2] at hsome
        by_cases h3 : pos ∈ combo
        · rw [if_pos h3] at hsome; simp at hsome
        · rw [if_neg h3] at hsome
          have h1' : ¬ W' ≤ spanOf (combo ++ [pos]) := by omega
          rw [if_neg h1', if_neg h2, if_neg h3]
          exact ih _ hsome

/-- Phrase-occurrence search is monotone in the proximity window. -/
theorem find_phrase_matches_mono (st : List Str) (ph : List Str)
    {W W' : Nat} (hW : W ≤ W') (ro : Bool)
    (h : find_phrase_matches st ph W ro ≠ []) :
    find_phrase_matches st ph W' ro ≠ [] := by
  match ph with
  | [] => rw [find_phrase_matches] at h ⊢; exact h
  | [t] => rw [find_phrase_matches] at h ⊢; exact h
  | t₁ :: t₂ :: ts =>
    unfold find_phrase_matches at h ⊢
    simp only [List.map_cons] at h ⊢
    by_cases hempty :
        ((positionsOf st t₁ :: positionsOf st t₂ :: ts.map (positionsOf st)).any
          (· = [])) = true
    · rw [if_pos hempty] at h; exact absurd rfl h
    · rw [if_neg hempty] at h ⊢
      rw [Ne, List.filterMap_eq_nil_iff] at h ⊢
      push_neg at h ⊢
      obtain ⟨a, hmem, hns⟩ := h
      refine ⟨a, hmem, ?_⟩
      have h1 : (find_combination (positionsOf st t₂ :: ts.map (positionsOf st))
          W ro [a]).isSome := Option.isSome_iff_ne_none.2 hns
      exact Option.isSome_iff_ne_none.1 (find_combination_mono hW ro _ _ h1)

/-- C3 (amended): when the rule has no proximity-scoped exclusions, the
matcher is monotone in the proximity window: a rule that yields a match
at window `W` also yields one at any window `W' ≥ W`, all other fields
unchanged. -/
theorem find_matches_window_mono (content : NormalizedResult)
    (cfg : KeywordConfig) (W' : Nat)
    (hexcl : cfg.exclusions = [] ∨ cfg.exclusion_scope ≠ "proximity".toList)
    (hW : cfg.proximity_window ≤ W')
    (hne : find_matches content cfg ≠ []) :
    find_matches content { cfg with proximity_window := W' } ≠ [] := by
  unfold find_matches at hne ⊢
  by_cases hguard : content.normalized_text = [] ∨ content.tokens = []
  · rw [if_pos hguard] at hne; exact absurd rfl hne
  · rw [if_neg hguard] at hne ⊢
    have hstem : content_stemmed_tokens content.tokens
        { cfg with proximity_window := W' } =
        content_stemmed_tokens content.tokens cfg := rfl
    have hae : anywhere_excluded content.tokens
        (content_stemmed_tokens content.tokens
          { cfg with proximity_window := W' })
        { cfg with proximity_window := W' } =
      anywhere_excluded content.tokens
        (content_stemmed_tokens content.tokens cfg) cfg := rfl
    rw [hae]
    by_cases hanyw : anywhere_excluded content.tokens
        (content_stemmed_tokens content.tokens cfg) cfg = true
    · rw [if_pos hanyw] at hne; exact absurd rfl hne
    · rw [if_neg hanyw] at hne ⊢
      rw [Ne, List.flatMap_eq_nil_iff] at hne ⊢
      push_neg at hne ⊢
      obtain ⟨ph, hmem, hph⟩ := hne
      refine ⟨ph, hmem, ?_⟩
      revert hph
      unfold phrase_results
      rw [hstem]
      have hus : ({ cfg with proximity_window := W' } :
          KeywordConfig).use_stemming = cfg.use_stemming := rfl
      have hro : ({ cfg with proximity_window := W' } :
          KeywordConfig).require_order = cfg.require_order := rfl
      have hex : ({ cfg with proximity_window := W' } :
          KeywordConfig).exclusions = cfg.exclusions := rfl
      have hsc : ({ cfg with proximity_window := W' } :
          KeywordConfig).exclusion_scope = cfg.exclusion_scope := rfl
      have hw : ({ cfg with proximity_window := W' } :
          KeywordConfig).proximity_window = W' := rfl
      rw [hus, hro, hex, hsc, hw]
      intro hph
      by_cases hphe : ph = []
      · rw [if_pos hphe] at hph; exact absurd rfl hph
      · rw [if_neg hphe] at hph ⊢
        have hnofilter : ∀ (W₀ : Nat) (mi : List Nat),
            ¬ (cfg.exclusions ≠ [] ∧
               cfg.exclusion_scope = "proximity".toList ∧
               has_proximity_exclusion
                 (content_stemmed_tokens content.tokens cfg) content.tokens
                 mi cfg.exclusions W₀ cfg.use_stemming = true) := by
          intro W₀ mi hc
          rcases hexcl with he | he
          · exact hc.1 he
          · exact he hc.2.1
        have hfpmW : find_phrase_matches
            (content_stemmed_tokens content.tokens cfg)
            (if cfg.use_stemming = true then (ph.map pyLower).map simple_stem
             else ph.map pyLower) cfg.proximity_window cfg.require_order
            ≠ [] := by
          intro hempty
          apply hph
          rw [hempty, List.filterMap_nil]
        have hfpmW' := find_phrase_matches_mono _ _ hW _ hfpmW
        intro hnil
        apply hfpmW'
        rw [List.filterMap_eq_nil_iff] at hnil
        rcases hlist : find_phrase_matches
            (content_stemmed_tokens content.tokens cfg)
            (if cfg.use_stemming = true then (ph.map pyLower).map simple_stem
             else ph.map pyLower) W' cfg.require_order with _ | ⟨mi, rest⟩
        · rfl
        · exfalso
          have := hnil mi (by rw [hlist]; exact List.mem_cons_self mi rest)
          rw [if_neg (hnofilter W' mi)] at this
          exact Option.some_ne_none _ this

/-- C3 counterexample: with a proximity-scoped exclusion, the matcher is
not monotone in the window.  On the content `"arb pad scam"`, the rule
`phrases=[["arb"]], exclusions=["scam"], scope=proximity` matches at
window 1 but the same rule with the larger window 2 does not: the wider
window also widens the exclusion scan, which now reaches `"scam"`. -/
theorem find_matches_window_not_monotone :
    find_matches
      { normalized_text := "arb pad scam".toList
        tokens := ["arb".toList, "pad".toList, "scam".toList] }
      { phrases := [["arb".toList]], exclusions := ["scam".toList]
        exclusion_scope := "proximity".toList, proximity_window := 1 } ≠ [] ∧
    find_matches
      { normalized_text := "arb pad scam".toList
        tokens := ["arb".toList, "pad".toList, "scam".toList] }
      { phrases := [["arb".toList]], exclusions := ["scam".toList]
        exclusion_scope := "proximity".toList, proximity_window := 2 } = [] := by
  constructor
  · decide
  · decide

/-- Witness for `find_matches_window_mono` at a concrete input: the rule
`[["arbitrage","betting"]]` matches `"arbitrage betting today"` at the
default window 15, hence also at window 20. -/
theorem find_matches_window_mono_witness :
    find_matches
      { normalized_text := "arbitrage betting today".toList
        tokens := ["arbitrage".toList, "betting".toList, "today".toList] }
      { phrases := [["arbitrage".toList, "betting".toList]] } ≠ [] ∧
    find_matches
      { normalized_text := "arbitrage betting today".toList
        tokens := ["arbitrage".toList, "betting".toList, "today".toList] }
      { phrases := [["arbitrage".toList, "betting".toList]],
        proximity_window := 20 } ≠ [] :=
  ⟨by decide,
   find_matches_window_mono
     { normalized_text := "arbitrage betting today".toList
       tokens := ["arbitrage".toList, "betting".toList, "today".toList] }
     { phrases := [["arbitrage".toList, "betting".toList]] }
     20 (Or.inl rfl) (by decide) (by decide)⟩

/-- The snippet formula exactly as the C4 claim states it:
`start = max(0, mid − 100)`, `end = min(len(text), start + 200)` — with
no re-anchoring of `start` — then the same ellipsis replacement. -/
def snippet_claim_formula (text : Str) (span_start span_end : Nat) : Str :=
  if text.length ≤ 200 then text
  else
    snippet_edges text ((span_start + span_end) / 2 - 100)
      (min text.length ((span_start + span_end) / 2 - 100 + 200))

/-- The C4 formula corrected by the re-anchoring the source performs:
`start = min(max(0, mid − 100), len(text) − 200)` and
`end = start + 200`. -/
def snippet_reanchored_formula (text : Str) (span_start span_end : Nat) :
    Str :=
  if text.length ≤ 200 then text
  else
    snippet_edges text
      (min ((span_start + span_end) / 2 - 100) (text.length - 200))
      (min ((span_start + span_end) / 2 - 100) (text.length - 200) + 200)

set_option maxRecDepth 4000 in
/-- C4 counterexample: on a 250-character text with a match span at
240–240, the source snippet keeps a full 200-character window (start is
re-anchored to 50) while the claim's formula yields only 110 characters
(start 140, end 250). -/
theorem generate_snippet_ne_claim_formula :
    generate_snippet (List.replicate 250 'a') 240 240 ≠
      snippet_claim_formula (List.replicate 250 'a') 240 240 := by
  decide

/-- C4 (amended): `_generate_snippet` computes exactly the claim's
formula with `start` re-anchored to `min(max(0, mid − 100), len − 200)`
and `end = start + 200`; the ellipsis rules and the ≤ 200-character
passthrough are as the claim states. -/
theorem generate_snippet_eq_reanchored (text : Str) (span_start span_end : Nat) :
    generate_snippet text span_start span_end =
      snippet_reanchored_formula text span_start span_end := by
  unfold generate_snippet snippet_reanchored_formula
  by_cases h : text.length ≤ 200
  · rw [if_pos h, if_pos h]
  · rw [if_neg h, if_neg h]
    simp only []
    by_cases h2 : text.length < (span_start + span_end) / 2 - 200 / 2 + 200
    · rw [if_pos h2]
      have e1 : min ((span_start + span_end) / 2 - 100) (text.length - 200) =
          text.length - 200 := by omega
      have e2 : text.length - 200 + 200 = text.length := by omega
      rw [e1, e2]
    · rw [if_neg h2]
      have e1 : min ((span_start + span_end) / 2 - 100) (text.length - 200) =
          (span_start + span_end) / 2 - 100 := by omega
      have e2 : (span_start + span_end) / 2 - 200 / 2 = (span_start + span_end) / 2 - 100 := by
        norm_num
      rw [e1, e2]

/-! ## Normalizer (`app/services/normalizer.py`)

Each `re.sub(pattern, repl, text)` of the source becomes a left-to-right
scanner: at every position it either consumes a leftmost match (emitting
the replacement) or copies one character.  A matcher function
`Str → Option (Str × Nat)` returns the replacement and the matched
length at the current position.  Patterns anchored at line starts
(`re.MULTILINE`) additionally see the previously consumed character. -/

/-- Generic `re.sub` scanner for context-free patterns.  `fuel` is set to
the input length by the wrappers below; every step consumes at least one
character, so the fuel never runs out. -/
def rewrite_scan (m : Str → Option (Str × Nat)) : Nat → Str → Str
  | 0, l => l
  | _, [] => []
  | fuel + 1, c :: cs =>
    match m (c :: cs) with
    | some (g, k) => g ++ rewrite_scan m fuel ((c :: cs).drop k)
    | none => c :: rewrite_scan m fuel cs

/-- `re.sub` scanner for patterns that inspect the character before the
current position (`^` under `re.MULTILINE`, look-behinds).  `prev` is
`none` at the start of the string. -/
def rewrite_scan_prev (m : Option Char → Str → Option (Str × Nat)) :
    Nat → Option Char → Str → Str
  | 0, _, l => l
  | _, _, [] => []
  | fuel + 1, prev, c :: cs =>
    match m prev (c :: cs) with
    | some (g, k) =>
        g ++ rewrite_scan_prev m fuel (some ((c :: cs).getD (k - 1) c))
          ((c :: cs).drop k)
    | none => c :: rewrite_scan_prev m fuel (some c) cs

/-- Matcher for `_URL_PATTERN = https?://\S+` (removal).  `\S+` is the
maximal nonempty run of non-whitespace after the scheme. -/
def url_match (l : Str) : Option (Str × Nat) :=
  if "https://".toList.isPrefixOf l then
    if ((l.drop 8).takeWhile (fun c => !isPySpace c)) = [] then none
    else some ([], 8 + ((l.drop 8).takeWhile (fun c => !isPySpace c)).length)
  else if "http://".toList.isPrefixOf l then
    if ((l.drop 7).takeWhile (fun c => !isPySpace c)) = [] then none
    else some ([], 7 + ((l.drop 7).takeWhile (fun c => !isPySpace c)).length)
  else none

/-- Matcher for `_REDDIT_LINK_PATTERN = \[([^\]]*)\]\([^)]*\)`,
replacement `\1`.  The source's group `\1` is
`rest.takeWhile (· ≠ ']')`; the url part is the `(· ≠ ')')` run after
`](`. -/
def link_match (l : Str) : Option (Str × Nat) :=
  match l with
  | '[' :: rest =>
    if [']', '('].isPrefixOf (rest.drop (rest.takeWhile (· ≠ ']')).length) then
      if [')'].isPrefixOf
          ((rest.drop ((rest.takeWhile (· ≠ ']')).length + 2)).drop
            ((rest.drop ((rest.takeWhile (· ≠ ']')).length + 2)).takeWhile
              (· ≠ ')')).length) then
        some (rest.takeWhile (· ≠ ']'),
          1 + (rest.takeWhile (· ≠ ']')).length + 2 +
            ((rest.drop ((rest.takeWhile (· ≠ ']')).length + 2)).takeWhile
              (· ≠ ')')).length + 1)
      else none
    else none
  | _ => none

/-- Index of the lazily-nearest two-character closer `cc` after an
opening delimiter: the smallest `i ≥ 1` with `l[i] = l[i+1] = c` whose
preceding content contains no newline (`.` does not match `\n`). -/
def pair_close_idx (c : Char) (l : Str) : Option Nat :=
  (List.range l.length).find? (fun i =>
    decide (1 ≤ i) && decide (l.getD i ' ' = c) && decide (l.getD (i + 1) ' ' = c)
      && (l.take i).all (· ≠ '\n'))

/-- Matcher for `_BOLD_PATTERN = \*\*(.+?)\*\*`, replacement `\1`. -/
def bold_match (l : Str) : Option (Str × Nat) :=
  match l with
  | '*' :: '*' :: rest =>
    (match pair_close_idx '*' rest with
     | some i => some (rest.take i, 2 + i + 2)
     | none => none)
  | _ => none

/-- Matcher for `_STRIKETHROUGH_PATTERN = ~~(.+?)~~`, replacement `\1`. -/
def strike_match (l : Str) : Option (Str × Nat) :=
  match l with
  | '~' :: '~' :: rest =>
    (match pair_close_idx '~' rest with
     | some i => some (rest.take i, 2 + i + 2)
     | none => none)
  | _ => none

/-- Closing position for the italic pattern: the smallest `i ≥ 1` with
`l[i] = '*'`, `l[i-1] ≠ '*'` (look-behind), `l[i+1] ≠ '*'` (look-ahead,
satisfied at the end of input), and no newline in the content. -/
def italic_close_idx (l : Str) : Option Nat :=
  (List.range l.length).find? (fun i =>
    decide (1 ≤ i) && decide (l.getD i ' ' = '*')
      && decide (l.getD (i - 1) ' ' ≠ '*')
      && decide (l.getD (i + 1) ' ' ≠ '*')
      && (l.take i).all (· ≠ '\n'))

/-- Matcher for
`_ITALIC_PATTERN = (?<!\*)\*(?!\*)(.+?)(?<!\*)\*(?!\*)`,
replacement `\1`.  `prev` carries the character before the current
position for the opening look-behind. -/
def italic_match (prev : Option Char) (l : Str) : Option (Str × Nat) :=
  match l with
  | '*' :: rest =>
    if prev = some '*' then none
    else if rest.headD ' ' = '*' then none
    else
      (match italic_close_idx rest with
       | some i => some (rest.take i, 1 + i + 1)
       | none => none)
  | _ => none

/-- Matcher for `` _INLINE_CODE_PATTERN = `([^`]+)` ``, replacement
`\1`: a nonempty backtick-free run enclosed in backticks. -/
def code_match (l : Str) : Option (Str × Nat) :=
  match l with
  | '`' :: rest =>
    if rest.takeWhile (· ≠ '`') = [] then none
    else if ['`'].isPrefixOf (rest.drop (rest.takeWhile (· ≠ '`')).length) then
      some (rest.takeWhile (· ≠ '`'), 1 + (rest.takeWhile (· ≠ '`')).length + 1)
    else none
  | _ => none

/-- Is the scanner at a line start (`^` with `re.MULTILINE`)? -/
def atLineStart (prev : Option Char) : Bool :=
  prev = none || prev = some '\n'

/-- Matcher for `_BLOCKQUOTE_PATTERN = ^>\s?` (MULTILINE), removal. -/
def quote_match (prev : Option Char) (l : Str) : Option (Str × Nat) :=
  if atLineStart prev then
    match l with
    | '>' :: c :: _ => if isPySpace c then some ([], 2) else some ([], 1)
    | ['>'] => some ([], 1)
    | _ => none
  else none

/-- Matcher for `_HEADING_PATTERN = ^#{1,6}\s+` (MULTILINE), removal:
a run of 1–6 `#` followed by at least one whitespace character; the
greedy `\s+` consumes the whole whitespace run.  A run of more than six
`#` never matches (every shorter split leaves a `#` where `\s` is
required). -/
def heading_match (prev : Option Char) (l : Str) : Option (Str × Nat) :=
  if atLineStart prev then
    if l.takeWhile (· = '#') = [] then none
    else if 6 < (l.takeWhile (· = '#')).length then none
    else if (l.drop (l.takeWhile (· = '#')).length).takeWhile isPySpace = []
      then none
    else
      some ([], (l.takeWhile (· = '#')).length +
        ((l.drop (l.takeWhile (· = '#')).length).takeWhile isPySpace).length)
  else none

/-- The whitespace length consumed by `\s*$` after a horizontal-rule
run: the largest `m` within the leading whitespace of `after` such that
position `m` is the end of input or a newline (backtracking from the
greedy maximum). -/
def hr_ws_len (after : Str) : Option Nat :=
  ((List.range ((after.takeWhile isPySpace).length + 1)).reverse).find?
    (fun m => decide (after.drop m = []) || decide ((after.drop m).headD ' ' = '\n'))

/-- Matcher for `_HORIZONTAL_RULE_PATTERN = ^[-*_]{3,}\s*$` (MULTILINE),
removal.  The character class mixes `-`, `*`, `_` freely; a shorter
split of the run never helps `\s*$`, so only the full run is tried. -/
def hr_match (prev : Option Char) (l : Str) : Option (Str × Nat) :=
  if atLineStart prev then
    if (l.takeWhile (fun c => c = '-' || c = '*' || c = '_')).length < 3 then
      none
    else
      match hr_ws_len
          (l.drop (l.takeWhile (fun c => c = '-' || c = '*' || c = '_')).length)
        with
      | some m =>
        some ([],
          (l.takeWhile (fun c => c = '-' || c = '*' || c = '_')).length + m)
      | none => none
  else none

/-- Matcher for `_SUPERSCRIPT_PATTERN = \^(\S+)`, replacement `\1`. -/
def sup_match (l : Str) : Option (Str × Nat) :=
  match l with
  | '^' :: rest =>
    if rest.takeWhile (fun c => !isPySpace c) = [] then none
    else some (rest.takeWhile (fun c => !isPySpace c),
      1 + (rest.takeWhile (fun c => !isPySpace c)).length)
  | _ => none

/-- Matcher for `_WHITESPACE_PATTERN = \s+`, replacement `" "`. -/
def ws_match (l : Str) : Option (Str × Nat) :=
  if l.takeWhile isPySpace = [] then none
  else some ([' '], (l.takeWhile isPySpace).length)

/-- `_strip_urls` (`normalizer.py`). -/
def strip_urls (l : Str) : Str := rewrite_scan url_match l.length l

/-- One `re.sub` pass per markdown pattern (`_strip_markdown`,
`normalizer.py`). -/
def link_pass (l : Str) : Str := rewrite_scan link_match l.length l

/-- Bold pass of `_strip_markdown`. -/
def bold_pass (l : Str) : Str := rewrite_scan bold_match l.length l

/-- Italic pass of `_strip_markdown`. -/
def italic_pass (l : Str) : Str := rewrite_scan_prev italic_match l.length none l

/-- Strikethrough pass of `_strip_markdown`. -/
def strike_pass (l : Str) : Str := rewrite_scan strike_match l.length l

/-- Inline-code pass of `_strip_markdown`. -/
def code_pass (l : Str) : Str := rewrite_scan code_match l.length l

/-- Blockquote pass of `_strip_markdown`. -/
def quote_pass (l : Str) : Str := rewrite_scan_prev quote_match l.length none l

/-- Heading pass of `_strip_markdown`. -/
def heading_pass (l : Str) : Str :=
  rewrite_scan_prev heading_match l.length none l

/-- Horizontal-rule pass of `_strip_markdown`. -/
def hr_pass (l : Str) : Str := rewrite_scan_prev hr_match l.length none l

/-- Superscript pass of `_strip_markdown`. -/
def sup_pass (l : Str) : Str := rewrite_scan sup_match l.length l

/-- `_strip_markdown` (`normalizer.py`): the nine substitutions in
source order — links, bold, italic, strikethrough, inline code,
blockquotes, headings, horizontal rules, superscript. -/
def strip_markdown (l : Str) : Str :=
  sup_pass (hr_pass (heading_pass (quote_pass (code_pass (strike_pass
    (italic_pass (bold_pass (link_pass l))))))))

/-- Python `str.strip()` over ASCII whitespace. -/
def pyStrip (l : Str) : Str :=
  ((l.dropWhile isPySpace).reverse.dropWhile isPySpace).reverse

/-- The `re.sub(_WHITESPACE_PATTERN, ' ', text)` pass. -/
def ws_pass (l : Str) : Str := rewrite_scan ws_match l.length l

/-- `_normalize_whitespace` (`normalizer.py`): collapse whitespace runs
to single spaces, then strip. -/
def normalize_whitespace (l : Str) : Str := pyStrip (ws_pass l)

/-- Characters matched by `_TOKEN_PATTERN = [a-z0-9'-]+`. -/
def isTokenChar (c : Char) : Bool :=
  ('a' ≤ c && c ≤ 'z') || ('0' ≤ c && c ≤ '9') || c = '\'' || c = '-'

/-- `_tokenize` (`normalizer.py`): `findall` of the token pattern, i.e.
the maximal runs of token characters. -/
def tokenize (l : Str) : List Str :=
  (l.splitOnP (fun c => !isTokenChar c)).filter (· ≠ [])

/-- `re.split((?<=[.!?])\s+, text)`: cut at every whitespace run that
follows `.`, `!` or `?`, dropping the separators.  `acc` holds the
current piece reversed; `prev` is the previously consumed character. -/
def sentence_split_go : Nat → Option Char → Str → Str → List Str
  | 0, _, acc, l => [acc.reverse ++ l]
  | _, _, acc, [] => [acc.reverse]
  | fuel + 1, prev, acc, c :: cs =>
    if (prev = some '.' ∨ prev = some '!' ∨ prev = some '?') ∧ isPySpace c then
      acc.reverse ::
        sentence_split_go fuel (some ' ') []
          ((c :: cs).drop ((c :: cs).takeWhile isPySpace).length)
    else
      sentence_split_go fuel (some c) (c :: acc) cs

/-- `_segment_sentences` (`normalizer.py`). -/
def segment_sentences (text : Str) : List Str :=
  if text = [] then []
  else
    ((sentence_split_go text.length none [] text).map pyStrip).filter (· ≠ [])

/-- `normalize_text` (`normalizer.py`): lowercase, strip markdown, strip
URLs, collapse whitespace, tokenize, segment sentences; empty or
whitespace-only input yields the empty result. -/
def normalize_text (raw_text : Str) : NormalizedResult :=
  if raw_text = [] ∨ pyStrip raw_text = [] then
    { normalized_text := [], tokens := [], sentences := [] }
  else
    { normalized_text :=
        normalize_whitespace (strip_urls (strip_markdown (pyLower raw_text)))
      tokens :=
        tokenize
          (normalize_whitespace (strip_urls (strip_markdown (pyLower raw_text))))
      sentences :=
        segment_sentences
          (normalize_whitespace
            (strip_urls (strip_markdown (pyLower raw_text)))) }

/-! ### Character provenance: every character a substitution pass emits
comes from its input (or is the single space inserted by the whitespace
pass).  Used to show normalized text is already lowercase. -/

/-- A matcher only emits characters of its input, or `' '`. -/
def MatcherChars (m : Str → Option (Str × Nat)) : Prop :=
  ∀ l g k, m l = some (g, k) → ∀ c ∈ g, c ∈ l ∨ c = ' '

theorem rewrite_scan_mem {m : Str → Option (Str × Nat)}
    (hm : MatcherChars m) :
    ∀ (fuel : Nat) (l : Str) (c : Char),
      c ∈ rewrite_scan m fuel l → c ∈ l ∨ c = ' ' := by
  intro fuel
  induction fuel with
  | zero => intro l c hc; rw [rewrite_scan] at hc; exact Or.inl hc
  | succ n ih =>
    intro l c hc
    match l with
    | [] => simp [rewrite_scan] at hc
    | a :: as =>
      rw [rewrite_scan] at hc
      cases hmatch : m (a :: as) with
      | some gk =>
        rw [hmatch] at hc
        rcases List.mem_append.1 hc with hg | hrec
        · exact hm _ _ _ hmatch c hg
        · rcases ih _ c hrec with hmem | hsp
          · exact Or.inl (List.mem_of_mem_drop hmem)
          · exact Or.inr hsp
      | none =>
        rw [hmatch] at hc
        rcases List.mem_cons.1 hc with rfl | hrec
        · exact Or.inl (List.mem_cons_self _ _)
        · rcases ih _ c hrec with hmem | hsp
          · exact Or.inl (List.mem_cons_of_mem _ hmem)
          · exact Or.inr hsp

/-- A context-aware matcher only emits characters of its input. -/
def MatcherCharsP (m : Option Char → Str → Option (Str × Nat)) : Prop :=
  ∀ prev l g k, m prev l = some (g, k) → ∀ c ∈ g, c ∈ l ∨ c = ' '

theorem rewrite_scan_prev_mem {m : Option Char → Str → Option (Str × Nat)}
    (hm : MatcherCharsP m) :
    ∀ (fuel : Nat) (prev : Option Char) (l : Str) (c : Char),
      c ∈ rewrite_scan_prev m fuel prev l → c ∈ l ∨ c = ' ' := by
  intro fuel
  induction fuel with
  | zero => intro prev l c hc; rw [rewrite_scan_prev] at hc; exact Or.inl hc
  | succ n ih =>
    intro prev l c hc
    match l with
    | [] => simp [rewrite_scan_prev] at hc
    | a :: as =>
      rw [rewrite_scan_prev] at hc
      cases hmatch : m prev (a :: as) with
      | some gk =>
        rw [hmatch] at hc
        rcases List.mem_append.1 hc with hg | hrec
        · exact hm _ _ _ _ hmatch c hg
        · rcases ih _ _ c hrec with hmem | hsp
          · exact Or.inl (List.mem_of_mem_drop hmem)
          · exact Or.inr hsp
      | none =>
        rw [hmatch] at hc
        rcases List.mem_cons.1 hc with rfl | hrec
        · exact Or.inl (List.mem_cons_self _ _)
        · rcases ih _ _ c hrec with hmem | hsp
          · exact Or.inl (List.mem_cons_of_mem _ hmem)
          · exact Or.inr hsp

theorem url_match_chars : MatcherChars url_match := by
  intro l g k h c hc
  unfold url_match at h
  repeat' split at h
  all_goals simp_all

theorem link_match_chars : MatcherChars link_match := by
  intro l g k h c hc
  unfold link_match at h
  repeat' split at h
  all_goals try contradiction
  rw [Option.some.injEq, Prod.mk.injEq] at h
  obtain ⟨h1, -⟩ := h
  subst h1
  exact Or.inl (List.mem_cons_of_mem _ ((List.takeWhile_sublist _).mem hc))

theorem bold_match_chars : MatcherChars bold_match := by
  intro l g k h c hc
  unfold bold_match at h
  repeat' split at h
  all_goals try contradiction
  rw [Option.some.injEq, Prod.mk.injEq] at h
  obtain ⟨h1, -⟩ := h
  subst h1
  exact Or.inl (List.mem_cons_of_mem _ (List.mem_cons_of_mem _
    ((List.take_sublist _ _).mem hc)))

theorem strike_match_chars : MatcherChars strike_match := by
  intro l g k h c hc
  unfold strike_match at h
  repeat' split at h
  all_goals try contradiction
  rw [Option.some.injEq, Prod.mk.injEq] at h
  obtain ⟨h1, -⟩ := h
  subst h1
  exact Or.inl (List.mem_cons_of_mem _ (List.mem_cons_of_mem _
    ((List.take_sublist _ _).mem hc)))

theorem italic_match_chars : MatcherCharsP italic_match := by
  intro prev l g k h c hc
  unfold italic_match at h
  repeat' split at h
  all_goals try contradiction
  rw [Option.some.injEq, Prod.mk.injEq] at h
  obtain ⟨h1, -⟩ := h
  subst h1
  exact Or.inl (List.mem_cons_of_mem _ ((List.take_sublist _ _).mem hc))

theorem code_match_chars : MatcherChars code_match := by
  intro l g k h c hc
  unfold code_match at h
  repeat' split at h
  all_goals try contradiction
  rw [Option.some.injEq, Prod.mk.injEq] at h
  obtain ⟨h1, -⟩ := h
  subst h1
  exact Or.inl (List.mem_cons_of_mem _ ((List.takeWhile_sublist _).mem hc))

theorem quote_match_chars : MatcherCharsP quote_match := by
  intro prev l g k h c hc
  unfold quote_match at h
  repeat' split at h
  all_goals simp_all

theorem heading_match_chars : MatcherCharsP heading_match := by
  intro prev l g k h c hc
  unfold heading_match at h
  repeat' split at h
  all_goals simp_all

theorem hr_match_chars : MatcherCharsP hr_match := by
  intro prev l g k h c hc
  unfold hr_match at h
  repeat' split at h
  all_goals simp_all

theorem sup_match_chars : MatcherChars sup_match := by
  intro l g k h c hc
  unfold sup_match at h
  repeat' split at h
  all_goals try contradiction
  rw [Option.some.injEq, Prod.mk.injEq] at h
  obtain ⟨h1, -⟩ := h
  subst h1
  exact Or.inl (List.mem_cons_of_mem _ ((List.takeWhile_sublist _).mem hc))

theorem ws_match_chars : MatcherChars ws_match := by
  intro l g k h c hc
  unfold ws_match at h
  repeat' split at h
  all_goals try contradiction
  rw [Option.some.injEq, Prod.mk.injEq] at h
  obtain ⟨h1, -⟩ := h
  subst h1
  exact Or.inr (by simpa using hc)

/-- "Every character of `out` is a character of `src` or a space." -/
def CharsFrom (src out : Str) : Prop := ∀ c ∈ out, c ∈ src ∨ c = ' '

theorem charsFrom_trans {a b c : Str} (h1 : CharsFrom a b)
    (h2 : CharsFrom b c) : CharsFrom a c :=
  fun x hx => (h2 x hx).elim (fun hb => h1 x hb) Or.inr

theorem charsFrom_scan {m : Str → Option (Str × Nat)} (hm : MatcherChars m)
    (fuel : Nat) (l : Str) : CharsFrom l (rewrite_scan m fuel l) :=
  fun c hc => rewrite_scan_mem hm fuel l c hc

theorem charsFrom_scan_prev {m : Option Char → Str → Option (Str × Nat)}
    (hm : MatcherCharsP m) (fuel : Nat) (prev : Option Char) (l : Str) :
    CharsFrom l (rewrite_scan_prev m fuel prev l) :=
  fun c hc => rewrite_scan_prev_mem hm fuel prev l c hc

theorem charsFrom_strip_markdown (l : Str) : CharsFrom l (strip_markdown l) := by
  unfold strip_markdown sup_pass hr_pass heading_pass quote_pass code_pass
    strike_pass italic_pass bold_pass link_pass
  exact charsFrom_trans (charsFrom_trans (charsFrom_trans (charsFrom_trans
    (charsFrom_trans (charsFrom_trans (charsFrom_trans (charsFrom_trans
      (charsFrom_scan link_match_chars _ _)
      (charsFrom_scan bold_match_chars _ _))
      (charsFrom_scan_prev italic_match_chars _ _ _))
      (charsFrom_scan strike_match_chars _ _))
      (charsFrom_scan code_match_chars _ _))
      (charsFrom_scan_prev quote_match_chars _ _ _))
      (charsFrom_scan_prev heading_match_chars _ _ _))
      (charsFrom_scan_prev hr_match_chars _ _ _))
    (charsFrom_scan sup_match_chars _ _)

theorem pyStrip_mem {c : Char} {l : Str} (h : c ∈ pyStrip l) : c ∈ l := by
  unfold pyStrip at h
  rw [List.mem_reverse] at h
  have h2 := (List.dropWhile_sublist (l := (l.dropWhile isPySpace).reverse)
    (p := isPySpace)).mem h
  rw [List.mem_reverse] at h2
  exact (List.dropWhile_sublist _).mem h2

theorem charsFrom_normalize_whitespace (l : Str) :
    CharsFrom l (normalize_whitespace l) := by
  intro c hc
  unfold normalize_whitespace ws_pass at hc
  exact charsFrom_scan ws_match_chars _ _ c (pyStrip_mem hc)

/-- Mapping `lowerChar` over a string all of whose characters are fixed
by `lowerChar` does nothing. -/
theorem pyLower_eq_self_of_fixed {l : Str}
    (h : ∀ c ∈ l, lowerChar c = c) : pyLower l = l := by
  induction l with
  | nil => rfl
  | cons a as ih =>
    unfold pyLower at ih ⊢
    rw [List.map_cons, h a (List.mem_cons_self _ _),
      ih (fun c hc => h c (List.mem_cons_of_mem _ hc))]

theorem lowerChar_fixed_of_mem_pyLower {c : Char} {r : Str}
    (h : c ∈ pyLower r) : lowerChar c = c := by
  obtain ⟨a, -, rfl⟩ := List.mem_map.1 h
  exact lowerChar_idem a

/-- The normalized text is already lowercase: re-lowering it does
nothing. -/
theorem pyLower_normalized_fixed (r : Str) :
    pyLower (normalize_whitespace (strip_urls (strip_markdown (pyLower r))))
      = normalize_whitespace (strip_urls (strip_markdown (pyLower r))) := by
  apply pyLower_eq_self_of_fixed
  intro c hc
  rcases charsFrom_normalize_whitespace _ c hc with h1 | h1
  · rcases charsFrom_scan url_match_chars _ _ c h1 with h2 | h2
    · rcases charsFrom_strip_markdown _ c h2 with h3 | h3
      · exact lowerChar_fixed_of_mem_pyLower h3
      · subst h3; decide
    · subst h2; decide
  · subst h1; decide

/-! ### The URL pass leaves no URL behind

`re.sub(https?://\S+, '', ·)` removes every occurrence, and collapsing
whitespace afterwards cannot create a new one: every removed URL is
followed by whitespace (or the end), so the scheme characters can never
become adjacent.  This justifies that re-running `_strip_urls` on
normalized text is the identity. -/

/-- `l` starts with a URL in the sense of `https?://\S+`: a scheme
followed by at least one non-whitespace character. -/
def urlHead (l : Str) : Prop :=
  (∃ d, ("https://".toList ++ [d]) <+: l ∧ isPySpace d = false) ∨
  (∃ d, ("http://".toList ++ [d]) <+: l ∧ isPySpace d = false)

/-- No suffix of `l` starts with a URL. -/
def NoUrl (l : Str) : Prop := ∀ t, t <:+ l → ¬ urlHead t

theorem drop_takeWhile_length (p : Char → Bool) (l : Str) :
    l.drop (l.takeWhile p).length = l.dropWhile p := by
  induction l with
  | nil => rfl
  | cons a as ih =>
    by_cases h : p a
    · rw [List.takeWhile_cons_of_pos h, List.dropWhile_cons_of_pos h,
        List.length_cons, List.drop_succ_cons, ih]
    · rw [List.takeWhile_cons_of_neg h, List.dropWhile_cons_of_neg h,
        List.length_nil, List.drop_zero]

theorem dropWhile_headD_false (p : Char → Bool) (l : Str) (d : Char)
    (h : l.dropWhile p ≠ []) : p ((l.dropWhile p).headD d) = false := by
  induction l with
  | nil => exact absurd rfl h
  | cons a as ih =>
    by_cases hp : p a
    · rw [List.dropWhile_cons_of_pos hp] at h ⊢; exact ih h
    · rw [List.dropWhile_cons_of_neg hp]
      simpa using hp

theorem prefix_scheme_iff (s l : Str) :
    (s.isPrefixOf l = true ∧
      (l.drop s.length).takeWhile (fun c => !isPySpace c) ≠ []) ↔
    ∃ d, (s ++ [d]) <+: l ∧ isPySpace d = false := by
  constructor
  · rintro ⟨h1, h2⟩
    obtain ⟨r, hr⟩ := List.isPrefixOf_iff_prefix.1 h1
    have hdrop : l.drop s.length = r := by
      rw [← hr, List.drop_left]
    cases hd : r with
    | nil => rw [hdrop, hd] at h2; exact absurd rfl h2
    | cons d rest =>
      have hdns : isPySpace d = false := by
        by_contra hc
        rw [Bool.not_eq_false] at hc
        rw [hdrop, hd, List.takeWhile_cons_of_neg (by simp [hc])] at h2
        exact absurd rfl h2
      refine ⟨d, ⟨rest, ?_⟩, hdns⟩
      rw [← hr, hd]
      simp
  · rintro ⟨d, ⟨rest, hrest⟩, hdns⟩
    have hl : l = s ++ (d :: rest) := by rw [← hrest]; simp
    constructor
    · exact List.isPrefixOf_iff_prefix.2 ⟨d :: rest, hl.symm⟩
    · rw [hl, List.drop_left, List.takeWhile_cons_of_pos (by simp [hdns])]
      simp

theorem urlHead_https_isPrefixOf {l : Str} {d : Char}
    (hp : ("https://".toList ++ [d]) <+: l) :
    "https://".toList.isPrefixOf l = true :=
  List.isPrefixOf_iff_prefix.2 ((List.prefix_append _ _).trans hp)

theorem urlHead_http_isPrefixOf {l : Str} {d : Char}
    (hp : ("http://".toList ++ [d]) <+: l) :
    "http://".toList.isPrefixOf l = true :=
  List.isPrefixOf_iff_prefix.2 ((List.prefix_append _ _).trans hp)

theorem not_https_and_http_head {l : Str} {d : Char}
    (h1 : "https://".toList.isPrefixOf l = true)
    (hp : ("http://".toList ++ [d]) <+: l) : False := by
  obtain ⟨r1, hr1⟩ := List.isPrefixOf_iff_prefix.1 h1
  obtain ⟨r2, hr2⟩ := hp
  rw [← hr1] at hr2
  have hlen : ("http://".toList ++ [d]).length = ("https://".toList).length := by
    simp
  obtain ⟨heq, -⟩ := List.append_inj hr2 hlen
  simp at heq

theorem url_match_ne_none_iff (l : Str) : url_match l ≠ none ↔ urlHead l := by
  have h8 : ("https://".toList).length = 8 := rfl
  have h7 : ("http://".toList).length = 7 := rfl
  unfold url_match urlHead
  by_cases h1 : "https://".toList.isPrefixOf l = true
  · rw [if_pos h1]
    by_cases h2 : (l.drop 8).takeWhile (fun c => !isPySpace c) = []
    · rw [if_pos h2]
      constructor
      · intro h; exact absurd rfl h
      · rintro (⟨d, hp, hd⟩ | ⟨d, hp, hd⟩)
        · have := ((prefix_scheme_iff "https://".toList l).2 ⟨d, hp, hd⟩).2
          rw [h8] at this
          exact (this h2).elim
        · exact (not_https_and_http_head h1 hp).elim
    · rw [if_neg h2]
      constructor
      · intro _
        exact Or.inl ((prefix_scheme_iff "https://".toList l).1
          ⟨h1, by rw [h8]; exact h2⟩)
      · intro _; simp
  · rw [if_neg h1]
    by_cases h3 : "http://".toList.isPrefixOf l = true
    · rw [if_pos h3]
      by_cases h4 : (l.drop 7).takeWhile (fun c => !isPySpace c) = []
      · rw [if_pos h4]
        constructor
        · intro h; exact absurd rfl h
        · rintro (⟨d, hp, hd⟩ | ⟨d, hp, hd⟩)
          · exact (h1 (urlHead_https_isPrefixOf hp)).elim
          · have := ((prefix_scheme_iff "http://".toList l).2 ⟨d, hp, hd⟩).2
            rw [h7] at this
            exact (this h4).elim
      · rw [if_neg h4]
        constructor
        · intro _
          exact Or.inr ((prefix_scheme_iff "http://".toList l).1
            ⟨h3, by rw [h7]; exact h4⟩)
        · intro _; simp
    · rw [if_neg h3]
      constructor
      · intro h; exact absurd rfl h
      · rintro (⟨d, hp, hd⟩ | ⟨d, hp, hd⟩)
        · exact (h1 (urlHead_https_isPrefixOf hp)).elim
        · exact (h3 (urlHead_http_isPrefixOf hp)).elim

theorem rewrite_scan_nil (m : Str → Option (Str × Nat)) (fuel : Nat) :
    rewrite_scan m fuel [] = [] := by
  cases fuel <;> simp [rewrite_scan]

theorem rewrite_scan_prev_nil (m : Option Char → Str → Option (Str × Nat))
    (fuel : Nat) (prev : Option Char) :
    rewrite_scan_prev m fuel prev [] = [] := by
  cases fuel <;> simp [rewrite_scan_prev]

theorem url_match_some_repl {l g : Str} {k : Nat}
    (h : url_match l = some (g, k)) : g = [] ∧ 1 ≤ k := by
  unfold url_match at h
  split_ifs at h
  · rw [Option.some.injEq, Prod.mk.injEq] at h
    obtain ⟨h1, h2⟩ := h
    exact ⟨h1.symm, by omega⟩
  · rw [Option.some.injEq, Prod.mk.injEq] at h
    obtain ⟨h1, h2⟩ := h
    exact ⟨h1.symm, by omega⟩

theorem url_match_drop_ws {l g : Str} {k : Nat}
    (h : url_match l = some (g, k)) :
    l.drop k = [] ∨ isPySpace ((l.drop k).headD 'x') = true := by
  unfold url_match at h
  split_ifs at h with h1 h2 h3 h4
  · simp only [Option.some.injEq, Prod.mk.injEq] at h
    obtain ⟨-, hk⟩ := h
    subst hk
    rw [← List.drop_drop, drop_takeWhile_length]
    rcases hnil : (l.drop 8).dropWhile (fun c => !isPySpace c) with _ | ⟨a, as⟩
    · exact Or.inl rfl
    · refine Or.inr ?_
      have := dropWhile_headD_false (fun c => !isPySpace c) (l.drop 8) 'x'
        (by rw [hnil]; simp)
      rw [hnil] at this
      simpa using this
  · simp only [Option.some.injEq, Prod.mk.injEq] at h
    obtain ⟨-, hk⟩ := h
    subst hk
    rw [← List.drop_drop, drop_takeWhile_length]
    rcases hnil : (l.drop 7).dropWhile (fun c => !isPySpace c) with _ | ⟨a, as⟩
    · exact Or.inl rfl
    · refine Or.inr ?_
      have := dropWhile_headD_false (fun c => !isPySpace c) (l.drop 7) 'x'
        (by rw [hnil]; simp)
      rw [hnil] at this
      simpa using this

theorem url_match_none_of_ws_head {w : Char} {x : Str}
    (hw : isPySpace w = true) : url_match (w :: x) = none := by
  unfold url_match
  rw [if_neg, if_neg]
  · intro hc
    obtain ⟨r, hr⟩ := List.isPrefixOf_iff_prefix.1 hc
    have hhw : 'h' = w := by
      have := congrArg (List.headD · 'x') hr
      simpa using this
    rw [← hhw] at hw
    exact absurd hw (by decide)
  · intro hc
    obtain ⟨r, hr⟩ := List.isPrefixOf_iff_prefix.1 hc
    have hhw : 'h' = w := by
      have := congrArg (List.headD · 'x') hr
      simpa using this
    rw [← hhw] at hw
    exact absurd hw (by decide)

/-- A non-whitespace prefix of the URL pass's output is a prefix of its
input: a deleted URL is always followed by whitespace, so a deletion can
never sit inside a whitespace-free window of the output. -/
theorem nonws_prefix_url_scan :
    ∀ (fuel : Nat) (l p : Str), l.length ≤ fuel →
      p <+: rewrite_scan url_match fuel l →
      (∀ c ∈ p, isPySpace c = false) → p <+: l := by
  intro fuel
  induction fuel with
  | zero =>
    intro l p hlen hp hnws
    rw [rewrite_scan] at hp
    exact hp
  | succ n ih =>
    intro l p hlen hp hnws
    match l with
    | [] =>
      rw [rewrite_scan_nil] at hp
      exact hp
    | a :: as =>
      rw [rewrite_scan] at hp
      cases hm : url_match (a :: as) with
      | some gk =>
        obtain ⟨g, k⟩ := gk
        rw [hm] at hp
        simp only [] at hp
        obtain ⟨hg, hk⟩ := url_match_some_repl hm
        rw [hg, List.nil_append] at hp
        rcases hd : (a :: as).drop k with _ | ⟨w, rest⟩
        · rw [hd, rewrite_scan_nil, List.prefix_nil] at hp
          subst hp
          exact List.nil_prefix
        · rcases url_match_drop_ws hm with hnil | hws
          · rw [hd] at hnil; exact absurd hnil (by simp)
          · rw [hd] at hp hws
            simp only [List.headD_cons] at hws
            have hscan : ∃ tail, rewrite_scan url_match n (w :: rest) =
                w :: tail := by
              cases n with
              | zero => exact ⟨rest, by rw [rewrite_scan]⟩
              | succ m =>
                rw [rewrite_scan, url_match_none_of_ws_head hws]
                exact ⟨_, rfl⟩
            obtain ⟨tail, htail⟩ := hscan
            rw [htail] at hp
            cases p with
            | nil => exact List.nil_prefix
            | cons pc pcs =>
              rw [List.cons_prefix_cons] at hp
              obtain ⟨rfl, -⟩ := hp
              exact absurd (hnws pc (List.mem_cons_self _ _))
                (by rw [hws]; simp)
      | none =>
        rw [hm] at hp
        cases p with
        | nil => exact List.nil_prefix
        | cons pc pcs =>
          rw [List.cons_prefix_cons] at hp
          obtain ⟨rfl, hp'⟩ := hp
          rw [List.cons_prefix_cons]
          exact ⟨rfl, ih as pcs (by simpa using hlen) hp'
            (fun c hc => hnws c (List.mem_cons_of_mem _ hc))⟩

theorem noUrl_nil : NoUrl [] := by
  intro t ht hu
  rw [List.suffix_nil] at ht
  subst ht
  rcases hu with ⟨d, hp, -⟩ | ⟨d, hp, -⟩ <;>
    · rw [List.prefix_nil] at hp
      simp at hp

theorem noUrl_suffix_closed {l : Str} (h : NoUrl l) {t : Str} (ht : t <:+ l) :
    NoUrl t := fun u hu => h u (hu.trans ht)

theorem noUrl_prefix_closed {l q : Str} (h : NoUrl l) (hq : q <+: l) :
    NoUrl q := by
  intro t ht hu
  obtain ⟨r, hr⟩ := hq
  obtain ⟨s, hs⟩ := ht
  refine h (t ++ r) ⟨s, ?_⟩ ?_
  · rw [← List.append_assoc, hs, hr]
  · rcases hu with ⟨d, hp, hd⟩ | ⟨d, hp, hd⟩
    · exact Or.inl ⟨d, hp.trans (List.prefix_append t r), hd⟩
    · exact Or.inr ⟨d, hp.trans (List.prefix_append t r), hd⟩

theorem urlHead_head {c : Char} {x : Str} (h : urlHead (c :: x)) : c = 'h' := by
  rcases h with ⟨d, hp, -⟩ | ⟨d, hp, -⟩
  · rw [show ("https://".toList ++ [d]) =
      'h' :: ("ttps://".toList ++ [d]) from rfl, List.cons_prefix_cons] at hp
    exact hp.1.symm
  · rw [show ("http://".toList ++ [d]) =
      'h' :: ("ttp://".toList ++ [d]) from rfl, List.cons_prefix_cons] at hp
    exact hp.1.symm

/-- Transfer a URL occurrence at the head of a cons through a
"non-whitespace prefixes transfer" property of the tail. -/
theorem urlHead_cons_transfer {a : Char} {S T : Str}
    (h : urlHead (a :: S))
    (htrans : ∀ p, p <+: S → (∀ c ∈ p, isPySpace c = false) → p <+: T) :
    urlHead (a :: T) := by
  rcases h with ⟨d, hp, hd⟩ | ⟨d, hp, hd⟩
  · rw [show ("https://".toList ++ [d]) =
      'h' :: ("ttps://".toList ++ [d]) from rfl] at hp
    rw [List.cons_prefix_cons] at hp
    obtain ⟨ha, hp'⟩ := hp
    have hnws : ∀ c ∈ "ttps://".toList ++ [d], isPySpace c = false := by
      intro c hc
      rcases List.mem_append.1 hc with hc | hc
      · fin_cases hc <;> decide
      · rw [List.mem_singleton.1 hc]; exact hd
    refine Or.inl ⟨d, ?_, hd⟩
    rw [show ("https://".toList ++ [d]) =
      'h' :: ("ttps://".toList ++ [d]) from rfl, List.cons_prefix_cons]
    exact ⟨ha, htrans _ hp' hnws⟩
  · rw [show ("http://".toList ++ [d]) =
      'h' :: ("ttp://".toList ++ [d]) from rfl] at hp
    rw [List.cons_prefix_cons] at hp
    obtain ⟨ha, hp'⟩ := hp
    have hnws : ∀ c ∈ "ttp://".toList ++ [d], isPySpace c = false := by
      intro c hc
      rcases List.mem_append.1 hc with hc | hc
      · fin_cases hc <;> decide
      · rw [List.mem_singleton.1 hc]; exact hd
    refine Or.inr ⟨d, ?_, hd⟩
    rw [show ("http://".toList ++ [d]) =
      'h' :: ("ttp://".toList ++ [d]) from rfl, List.cons_prefix_cons]
    exact ⟨ha, htrans _ hp' hnws⟩

/-- The URL pass leaves no URL occurrence in its output. -/
theorem noUrl_url_scan : ∀ (fuel : Nat) (l : Str), l.length ≤ fuel →
    NoUrl (rewrite_scan url_match fuel l) := by
  intro fuel
  induction fuel with
  | zero =>
    intro l hlen
    rw [rewrite_scan]
    have hl : l = [] := by
      cases l with
      | nil => rfl
      | cons a as => simp at hlen
    subst hl
    exact noUrl_nil
  | succ n ih =>
    intro l hlen
    match l with
    | [] => rw [rewrite_scan_nil]; exact noUrl_nil
    | a :: as =>
      rw [rewrite_scan]
      cases hm : url_match (a :: as) with
      | some gk =>
        obtain ⟨g, k⟩ := gk
        simp only []
        obtain ⟨hg, hk⟩ := url_match_some_repl hm
        rw [hg, List.nil_append]
        refine ih _ ?_
        simp only [List.length_drop, List.length_cons]
        simp only [List.length_cons] at hlen
        omega
      | none =>
        simp only []
        intro t ht hu
        rcases List.suffix_cons_iff.1 ht with rfl | ht'
        · have := urlHead_cons_transfer hu
            (fun p hp hnws => nonws_prefix_url_scan n as p
              (by simpa using hlen) hp hnws)
          exact ((url_match_ne_none_iff (a :: as)).2 this) hm
        · exact ih as (by simpa using hlen) t ht' hu

/-- On a string with no URL occurrence, the URL pass is the identity. -/
theorem url_scan_fixed : ∀ (fuel : Nat) (l : Str), l.length ≤ fuel →
    NoUrl l → rewrite_scan url_match fuel l = l := by
  intro fuel
  induction fuel with
  | zero => intro l hlen hN; rw [rewrite_scan]
  | succ n ih =>
    intro l hlen hN
    match l with
    | [] => rw [rewrite_scan_nil]
    | a :: as =>
      rw [rewrite_scan]
      cases hm : url_match (a :: as) with
      | some gk =>
        exact absurd ((url_match_ne_none_iff (a :: as)).1 (by rw [hm]; simp))
          (fun hu => (hN (a :: as) (List.suffix_refl _)) hu)
      | none =>
        simp only []
        rw [ih as (by simpa using hlen)
          (noUrl_suffix_closed hN (List.suffix_cons a as))]

theorem ws_match_some_shape {l g : Str} {k : Nat}
    (h : ws_match l = some (g, k)) :
    g = [' '] ∧ 1 ≤ k ∧ l.drop k = l.dropWhile isPySpace := by
  unfold ws_match at h
  split_ifs at h with h1
  rw [Option.some.injEq, Prod.mk.injEq] at h
  obtain ⟨hg, hk⟩ := h
  refine ⟨hg.symm, ?_, ?_⟩
  · rw [← hk]
    rcases hl : l.takeWhile isPySpace with _ | _
    · exact absurd hl h1
    · simp
  · rw [← hk, drop_takeWhile_length]

theorem ws_match_none_of_nonws_head {a : Char} {x : Str}
    (ha : isPySpace a = false) : ws_match (a :: x) = none := by
  unfold ws_match
  rw [List.takeWhile_cons_of_neg (by simp [ha]), if_pos rfl]

theorem nonws_prefix_ws_scan :
    ∀ (fuel : Nat) (l p : Str), l.length ≤ fuel →
      p <+: rewrite_scan ws_match fuel l →
      (∀ c ∈ p, isPySpace c = false) → p <+: l := by
  intro fuel
  induction fuel with
  | zero =>
    intro l p hlen hp hnws
    rw [rewrite_scan] at hp
    exact hp
  | succ n ih =>
    intro l p hlen hp hnws
    match l with
    | [] => rw [rewrite_scan_nil] at hp; exact hp
    | a :: as =>
      rw [rewrite_scan] at hp
      cases hm : ws_match (a :: as) with
      | some gk =>
        obtain ⟨g, k⟩ := gk
        rw [hm] at hp
        simp only [] at hp
        obtain ⟨hg, hk, -⟩ := ws_match_some_shape hm
        rw [hg] at hp
        cases p with
        | nil => exact List.nil_prefix
        | cons pc pcs =>
          rw [show ([' '] ++ rewrite_scan ws_match n ((a :: as).drop k)) =
            ' ' :: rewrite_scan ws_match n ((a :: as).drop k) from rfl,
            List.cons_prefix_cons] at hp
          obtain ⟨rfl, -⟩ := hp
          exact absurd (hnws ' ' (List.mem_cons_self _ _)) (by decide)
      | none =>
        rw [hm] at hp
        cases p with
        | nil => exact List.nil_prefix
        | cons pc pcs =>
          rw [List.cons_prefix_cons] at hp
          obtain ⟨rfl, hp'⟩ := hp
          rw [List.cons_prefix_cons]
          exact ⟨rfl, ih as pcs (by simpa using hlen) hp'
            (fun c hc => hnws c (List.mem_cons_of_mem _ hc))⟩

/-- Collapsing whitespace cannot create a URL occurrence. -/
theorem noUrl_ws_scan : ∀ (fuel : Nat) (l : Str), l.length ≤ fuel →
    NoUrl l → NoUrl (rewrite_scan ws_match fuel l) := by
  intro fuel
  induction fuel with
  | zero => intro l hlen hN; rw [rewrite_scan]; exact hN
  | succ n ih =>
    intro l hlen hN
    match l with
    | [] => rw [rewrite_scan_nil]; exact noUrl_nil
    | a :: as =>
      rw [rewrite_scan]
      cases hm : ws_match (a :: as) with
      | some gk =>
        obtain ⟨g, k⟩ := gk
        simp only []
        obtain ⟨hg, hk, -⟩ := ws_match_some_shape hm
        rw [hg]
        intro t ht hu
        rcases List.suffix_cons_iff.1
            (by simpa using ht : t <:+ ' ' ::
              rewrite_scan ws_match n ((a :: as).drop k)) with rfl | ht'
        · exact absurd (urlHead_head hu) (by decide)
        · refine ih ((a :: as).drop k) ?_
            (noUrl_suffix_closed hN (List.drop_suffix _ _)) t ht' hu
          simp only [List.length_drop, List.length_cons]
          simp only [List.length_cons] at hlen
          omega
      | none =>
        simp only []
        intro t ht hu
        rcases List.suffix_cons_iff.1 ht with rfl | ht'
        · have := urlHead_cons_transfer hu
            (fun p hp hnws => nonws_prefix_ws_scan n as p
              (by simpa using hlen) hp hnws)
          exact (hN (a :: as) (List.suffix_refl _)) this
        · exact ih as (by simpa using hlen)
            (noUrl_suffix_closed hN (List.suffix_cons a as)) t ht' hu

theorem noUrl_pyStrip {l : Str} (h : NoUrl l) : NoUrl (pyStrip l) := by
  unfold pyStrip
  have h1 : NoUrl (l.dropWhile isPySpace) :=
    noUrl_suffix_closed h (List.dropWhile_suffix _)
  refine noUrl_prefix_closed h1 ?_
  rw [show ((l.dropWhile isPySpace).reverse.dropWhile isPySpace).reverse
        <+: l.dropWhile isPySpace ↔
      ((l.dropWhile isPySpace).reverse.dropWhile isPySpace).reverse
        <+: ((l.dropWhile isPySpace).reverse).reverse from by
    rw [List.reverse_reverse]]
  rw [List.reverse_prefix]
  exact List.dropWhile_suffix _

/-! ### The whitespace pass is idempotent on its own output -/

/-- Every whitespace character of `l` is a plain space. -/
def AllWsSpace (l : Str) : Prop := ∀ c ∈ l, isPySpace c = true → c = ' '

/-- No two adjacent whitespace characters. -/
def NoAdjWs (l : Str) : Prop :=
  List.Chain' (fun a b => ¬(isPySpace a = true ∧ isPySpace b = true)) l

theorem ws_match_none_head {a : Char} {x : Str}
    (h : ws_match (a :: x) = none) : isPySpace a = false := by
  by_contra hc
  rw [Bool.not_eq_false] at hc
  unfold ws_match at h
  rw [List.takeWhile_cons_of_pos hc, if_neg (by simp)] at h
  exact absurd h (by simp)

theorem dropWhile_head?_false (p : Char → Bool) (l : Str) :
    ∀ c ∈ (l.dropWhile p).head?, p c = false := by
  induction l with
  | nil => intro c hc; simp at hc
  | cons a as ih =>
    by_cases hp : p a
    · rw [List.dropWhile_cons_of_pos hp]; exact ih
    · rw [List.dropWhile_cons_of_neg hp]
      intro c hc
      simp only [List.head?_cons, Option.mem_def, Option.some.injEq] at hc
      subst hc
      simpa using hp

theorem ws_scan_head_nonws (n : Nat) (x : Str)
    (hx : ∀ c ∈ x.head?, isPySpace c = false) :
    ∀ c ∈ (rewrite_scan ws_match n x).head?, isPySpace c = false := by
  cases x with
  | nil => rw [rewrite_scan_nil]; intro c hc; simp at hc
  | cons a as =>
    have ha : isPySpace a = false := hx a rfl
    cases n with
    | zero => rw [rewrite_scan]; exact hx
    | succ m =>
      rw [rewrite_scan, ws_match_none_of_nonws_head ha]
      intro c hc
      simp only [List.head?_cons, Option.mem_def, Option.some.injEq] at hc
      subst hc
      exact ha

theorem ws_scan_allWsSpace : ∀ (fuel : Nat) (l : Str), l.length ≤ fuel →
    AllWsSpace (rewrite_scan ws_match fuel l) := by
  intro fuel
  induction fuel with
  | zero =>
    intro l hlen
    rw [rewrite_scan]
    intro c hc
    cases l with
    | nil => simp at hc
    | cons a as => simp at hlen
  | succ n ih =>
    intro l hlen
    match l with
    | [] => rw [rewrite_scan_nil]; intro c hc; simp at hc
    | a :: as =>
      rw [rewrite_scan]
      cases hm : ws_match (a :: as) with
      | some gk =>
        obtain ⟨g, k⟩ := gk
        simp only []
        obtain ⟨hg, hk, -⟩ := ws_match_some_shape hm
        rw [hg]
        intro c hc hws
        rcases List.mem_cons.1 hc with rfl | hc'
        · rfl
        · refine ih _ ?_ c hc' hws
          simp only [List.length_drop, List.length_cons]
          simp only [List.length_cons] at hlen
          omega
      | none =>
        simp only []
        intro c hc hws
        rcases List.mem_cons.1 hc with rfl | hc'
        · exact absurd hws (by rw [ws_match_none_head hm]; decide)
        · exact ih as (by simpa using hlen) c hc' hws

theorem ws_scan_noAdjWs : ∀ (fuel : Nat) (l : Str), l.length ≤ fuel →
    NoAdjWs (rewrite_scan ws_match fuel l) := by
  intro fuel
  induction fuel with
  | zero =>
    intro l hlen
    rw [rewrite_scan]
    cases l with
    | nil => exact List.chain'_nil
    | cons a as => simp at hlen
  | succ n ih =>
    intro l hlen
    match l with
    | [] => rw [rewrite_scan_nil]; exact List.chain'_nil
    | a :: as =>
      rw [rewrite_scan]
      cases hm : ws_match (a :: as) with
      | some gk =>
        obtain ⟨g, k⟩ := gk
        simp only []
        obtain ⟨hg, hk, hdrop⟩ := ws_match_some_shape hm
        rw [hg]
        have hlen' : ((a :: as).drop k).length ≤ n := by
          simp only [List.length_drop, List.length_cons]
          simp only [List.length_cons] at hlen
          omega
        refine List.chain'_cons'.2 ⟨?_, ih _ hlen'⟩
        intro y hy
        have hyns : isPySpace y = false := by
          refine ws_scan_head_nonws n ((a :: as).drop k) ?_ y hy
          rw [hdrop]
          exact dropWhile_head?_false isPySpace (a :: as)
        rintro ⟨-, hws⟩
        rw [hyns] at hws
        exact absurd hws (by decide)
      | none =>
        simp only []
        refine List.chain'_cons'.2 ⟨?_, ih as (by simpa using hlen)⟩
        intro y hy
        rintro ⟨hws, -⟩
        rw [ws_match_none_head hm] at hws
        exact absurd hws (by decide)

theorem ws_scan_fixed : ∀ (fuel : Nat) (l : Str), l.length ≤ fuel →
    AllWsSpace l → NoAdjWs l → rewrite_scan ws_match fuel l = l := by
  intro fuel
  induction fuel with
  | zero => intro l hlen hA hC; rw [rewrite_scan]
  | succ n ih =>
    intro l hlen hA hC
    match l with
    | [] => rw [rewrite_scan_nil]
    | a :: as =>
      by_cases hws : isPySpace a = true
      · have ha : a = ' ' := hA a (List.mem_cons_self _ _) hws
        have htw : (a :: as).takeWhile isPySpace = [a] := by
          rw [List.takeWhile_cons_of_pos hws]
          cases as with
          | nil => rfl
          | cons b bs =>
            have hb := (List.chain'_cons'.1 hC).1 b rfl
            have hbns : isPySpace b = false := by
              by_contra hc
              rw [Bool.not_eq_false] at hc
              exact hb ⟨hws, hc⟩
            rw [List.takeWhile_cons_of_neg (by simp [hbns])]
        have hm : ws_match (a :: as) = some ([' '], 1) := by
          unfold ws_match
          rw [htw, if_neg (by simp)]
          simp
        rw [rewrite_scan, hm]
        simp only []
        rw [show (a :: as).drop 1 = as from rfl,
          ih as (by simpa using hlen)
            (fun c hc h => hA c (List.mem_cons_of_mem _ hc) h) hC.tail, ha]
        rfl
      · have ha : isPySpace a = false := by
          rw [← Bool.not_eq_true]; exact hws
        rw [rewrite_scan, ws_match_none_of_nonws_head ha]
        simp only []
        rw [ih as (by simpa using hlen)
          (fun c hc h => hA c (List.mem_cons_of_mem _ hc) h) hC.tail]

theorem dropWhile_eq_self_of_head (p : Char → Bool) (l : Str)
    (h : ∀ c ∈ l.head?, p c = false) : l.dropWhile p = l := by
  cases l with
  | nil => rfl
  | cons a as => exact List.dropWhile_cons_of_neg (by simp [h a rfl])

theorem pyStrip_prefix_dropWhile (l : Str) :
    pyStrip l <+: l.dropWhile isPySpace := by
  unfold pyStrip
  rw [show ((l.dropWhile isPySpace).reverse.dropWhile isPySpace).reverse
        <+: l.dropWhile isPySpace ↔
      ((l.dropWhile isPySpace).reverse.dropWhile isPySpace).reverse
        <+: ((l.dropWhile isPySpace).reverse).reverse from by
    rw [List.reverse_reverse]]
  rw [List.reverse_prefix]
  exact List.dropWhile_suffix _

theorem prefix_head?_eq {p y : Str} (hp : p <+: y) (hne : p ≠ []) :
    p.head? = y.head? := by
  obtain ⟨r, hr⟩ := hp
  cases p with
  | nil => exact absurd rfl hne
  | cons pc pcs => rw [← hr]; rfl

theorem pyStrip_head_nonws (l : Str) :
    ∀ c ∈ (pyStrip l).head?, isPySpace c = false := by
  intro c hc
  rcases hps : pyStrip l with _ | ⟨a, as⟩
  · rw [hps] at hc; simp at hc
  · have hpre := pyStrip_prefix_dropWhile l
    rw [hps] at hpre hc
    have := prefix_head?_eq hpre (by simp)
    refine dropWhile_head?_false isPySpace l c ?_
    rw [← this]
    exact hc

theorem pyStrip_getLast_nonws (l : Str) :
    ∀ c ∈ (pyStrip l).getLast?, isPySpace c = false := by
  intro c hc
  unfold pyStrip at hc
  rw [List.getLast?_reverse] at hc
  exact dropWhile_head?_false isPySpace _ c hc

theorem pyStrip_fixed {l : Str}
    (h1 : ∀ c ∈ l.head?, isPySpace c = false)
    (h2 : ∀ c ∈ l.getLast?, isPySpace c = false) : pyStrip l = l := by
  unfold pyStrip
  rw [dropWhile_eq_self_of_head _ _ h1,
    dropWhile_eq_self_of_head _ _ (by rw [List.head?_reverse]; exact h2),
    List.reverse_reverse]

theorem pyStrip_allWsSpace {l : Str} (h : AllWsSpace l) :
    AllWsSpace (pyStrip l) :=
  fun c hc hws => h c (pyStrip_mem hc) hws

theorem pyStrip_noAdjWs {l : Str} (h : NoAdjWs l) : NoAdjWs (pyStrip l) :=
  List.Chain'.prefix (List.Chain'.suffix h (List.dropWhile_suffix _))
    (pyStrip_prefix_dropWhile l)

/-- Whitespace normalization is idempotent. -/
theorem normalize_whitespace_idem (y : Str) :
    normalize_whitespace (normalize_whitespace y) = normalize_whitespace y := by
  have hA : AllWsSpace (normalize_whitespace y) := by
    unfold normalize_whitespace ws_pass
    exact pyStrip_allWsSpace (ws_scan_allWsSpace _ _ le_rfl)
  have hC : NoAdjWs (normalize_whitespace y) := by
    unfold normalize_whitespace ws_pass
    exact pyStrip_noAdjWs (ws_scan_noAdjWs _ _ le_rfl)
  have hhead : ∀ c ∈ (normalize_whitespace y).head?, isPySpace c = false := by
    unfold normalize_whitespace ws_pass
    exact pyStrip_head_nonws _
  have hlast : ∀ c ∈ (normalize_whitespace y).getLast?, isPySpace c = false := by
    unfold normalize_whitespace ws_pass
    exact pyStrip_getLast_nonws _
  conv_lhs => rw [normalize_whitespace, ws_pass]
  rw [ws_scan_fixed _ _ le_rfl hA hC]
  exact pyStrip_fixed hhead hlast

/-- C5 counterexample: normalization is not idempotent.  For the raw
text `"  > b"`, the blockquote marker is not at a line start (the line
begins with spaces), so the markdown pass keeps it; whitespace collapse
then moves it to the front, and a second normalization strips it:
`normalize("  > b").text = "> b"` but `normalize("> b").text = "b"`. -/
theorem normalize_text_not_idempotent :
    (normalize_text ((normalize_text "  > b".toList).normalized_text)).normalized_text
      ≠ (normalize_text "  > b".toList).normalized_text := by
  decide

/-- C5 (amended): normalization is idempotent on every raw text whose
normalized form the markdown-stripping pass leaves unchanged — the
lowercase, URL-stripping and whitespace steps are always idempotent on
normalized output; only a markdown pattern surviving into the
normalized text (such as a blockquote marker exposed by whitespace
collapse) can make a second normalization differ. -/
theorem normalize_text_idem_of_markdown_fixed (R : Str)
    (hmd : strip_markdown ((normalize_text R).normalized_text) =
      (normalize_text R).normalized_text) :
    (normalize_text ((normalize_text R).normalized_text)).normalized_text =
      (normalize_text R).normalized_text := by
  by_cases hg : R = [] ∨ pyStrip R = []
  · have hR : normalize_text R =
        { normalized_text := [], tokens := [], sentences := [] } := by
      rw [normalize_text, if_pos hg]
    rw [hR]
    rfl
  · have hNdef : (normalize_text R).normalized_text =
        normalize_whitespace (strip_urls (strip_markdown (pyLower R))) := by
      rw [normalize_text, if_neg hg]
    obtain ⟨N, hNeq⟩ : ∃ N,
        normalize_whitespace (strip_urls (strip_markdown (pyLower R))) = N :=
      ⟨_, rfl⟩
    have hidem : normalize_whitespace N = N := by
      rw [← hNeq]; exact normalize_whitespace_idem _
    have hlower : pyLower N = N := by
      rw [← hNeq]; exact pyLower_normalized_fixed R
    have hurl : strip_urls N = N := by
      rw [← hNeq]
      refine url_scan_fixed _ _ le_rfl ?_
      rw [show normalize_whitespace (strip_urls (strip_markdown (pyLower R)))
          = pyStrip (ws_pass (strip_urls (strip_markdown (pyLower R))))
          from rfl]
      exact noUrl_pyStrip (noUrl_ws_scan _ _ le_rfl
        (noUrl_url_scan _ _ le_rfl))
    have hstripN : pyStrip N = N := by
      rw [← hNeq]
      refine pyStrip_fixed ?_ ?_
      · rw [show normalize_whitespace (strip_urls (strip_markdown (pyLower R)))
            = pyStrip (ws_pass (strip_urls (strip_markdown (pyLower R))))
            from rfl]
        exact pyStrip_head_nonws _
      · rw [show normalize_whitespace (strip_urls (strip_markdown (pyLower R)))
            = pyStrip (ws_pass (strip_urls (strip_markdown (pyLower R))))
            from rfl]
        exact pyStrip_getLast_nonws _
    rw [hNdef, hNeq] at hmd ⊢
    by_cases hNnil : N = []
    · rw [normalize_text, if_pos (Or.inl hNnil)]
      exact hNnil.symm
    · rw [normalize_text, if_neg (by
        push_neg
        exact ⟨hNnil, by rw [hstripN]; exact hNnil⟩)]
      rw [hlower, hmd, hurl]
      exact hidem

/-- Witness for `normalize_text_idem_of_markdown_fixed` at the concrete
raw text `"hello world"`. -/
theorem normalize_text_idem_witness :
    strip_markdown ((normalize_text "hello world".toList).normalized_text) =
      (normalize_text "hello world".toList).normalized_text ∧
    (normalize_text ((normalize_text "hello world".toList).normalized_text)).normalized_text
      = (normalize_text "hello world".toList).normalized_text :=
  ⟨by decide, normalize_text_idem_of_markdown_fixed "hello world".toList (by decide)⟩

/-! ## Match engine (`app/services/match_engine.py`) -/

/-- Python `str.split()` with no argument: split on whitespace runs,
dropping empty pieces. -/
def pySplit (l : Str) : List Str :=
  (l.splitOnP isPySpace).filter (· ≠ [])

/-- `Keyword` row (`app/models/keywords.py`): the fields the match
engine reads.  Clients and timestamps are modelled by naturals;
`silenced_until` is an optional timestamp. -/
structure Keyword where
  id : Nat
  client_id : Nat
  phrases : List Str
  exclusions : List Str := []
  proximity_window : Nat := 15
  require_order : Bool := false
  use_stemming : Bool := false
  is_active : Bool := true
  silenced_until : Option Nat := none
deriving Repr, DecidableEq

/-- `MonitoredSubreddit` row (`app/models/subreddits.py`): the fields
the match engine reads. -/
structure MonitoredSubreddit where
  client_id : Nat
  name : Str
  status : Str
deriving Repr, DecidableEq

/-- `RedditContent` row (`app/models/content.py`): the fields created by
the poller and read by the match engine.  `id` is the database primary
key (assigned on insert; records not yet persisted carry 0). -/
structure RedditContent where
  id : Nat := 0
  reddit_id : Str
  subreddit : Str
  content_type : Str
  title : Option Str := none
  body : Str
  author : Str
  normalized_text : Str
  content_hash : Str := []
  reddit_created_at : Nat := 0
  is_deleted : Bool := false
deriving Repr, DecidableEq

/-- `AlertStatus` enum (`app/models/matches.py`). -/
inductive AlertStatus where
  | pending
  | sent
  | failed
deriving Repr, DecidableEq, Inhabited

/-- `Match` row (`app/models/matches.py`): the fields written by
`MatchEngine._create_match_record` and read/updated by the alert
dispatcher.  `id` is the database primary key (assigned on insert; the
engine model leaves it 0). -/
structure MatchRow where
  id : Nat := 0
  client_id : Nat
  keyword_id : Nat
  content_id : Nat
  content_type : Str
  subreddit : Str
  matched_phrase : Str
  also_matched : List Str
  snippet : Str
  full_text : Str
  proximity_score : ℚ
  reddit_url : Str
  reddit_author : Str
  is_deleted : Bool
  detected_at : Nat
  alert_status : AlertStatus
  alert_sent_at : Option Nat := none
deriving Repr, DecidableEq, Inhabited

/-- The database state queried by the match engine. -/
structure MatchDb where
  subreddits : List MonitoredSubreddit
  keywords : List Keyword
deriving Repr, DecidableEq

/-- `MatchEngine._get_relevant_keywords`: the active monitors of the
given subreddit, each contributing the active keywords of its client.
A client is modelled by its id. -/
def get_relevant_keywords (db : MatchDb) (subreddit : Str) :
    List (Nat × Keyword) :=
  (db.subreddits.filter
      (fun s => s.name = subreddit ∧ s.status = "active".toList)).flatMap
    (fun sub =>
      (db.keywords.filter
          (fun k => k.client_id = sub.client_id ∧ k.is_active = true)).map
        (fun k => (sub.client_id, k)))

/-- `MatchEngine._keyword_to_config` (`exclusion_scope` keeps the
dataclass default `"anywhere"`, as in the source). -/
def keyword_to_config (keyword : Keyword) : KeywordConfig :=
  { phrases := keyword.phrases.map pySplit
    exclusions := keyword.exclusions
    proximity_window := keyword.proximity_window
    require_order := keyword.require_order
    use_stemming := keyword.use_stemming }

/-- The `NormalizedResult` rebuilt by `process_content` from a stored
content row (`tokens = normalized_text.split() if normalized_text else
[]`). -/
def engine_normalized (content : RedditContent) : NormalizedResult :=
  { normalized_text := content.normalized_text
    tokens :=
      if content.normalized_text ≠ [] then pySplit content.normalized_text
      else []
    sentences := [] }

/-- `MatchEngine._create_match_record` (the session insert is dropped;
`now` is the `datetime.now` timestamp; `client_id` is `client.id` for
`client = keyword.client`). -/
def create_match_record (client_id : Nat) (keyword : Keyword)
    (content : RedditContent) (match_result : MatchResult)
    (also_matched : List Str) (now : Nat) : MatchRow :=
  { client_id := client_id
    keyword_id := keyword.id
    content_id := content.id
    content_type := content.content_type
    subreddit := content.subreddit
    matched_phrase := match_result.matched_phrase
    also_matched := also_matched
    snippet := match_result.snippet.take 200
    full_text := content.body
    proximity_score := match_result.proximity_score
    reddit_url := "https://reddit.com/r/".toList ++ content.subreddit ++
      "/comments/".toList ++ content.reddit_id
    reddit_author := content.author
    is_deleted := content.is_deleted
    detected_at := now
    alert_status := AlertStatus.pending }

/-- Append values under a key of an association list, keeping
first-insertion key order (Python dict semantics of the
`client_matches` dict in `process_content`). -/
def insertAppend (m : List (Nat × List (Keyword × MatchResult)))
    (key : Nat) (vals : List (Keyword × MatchResult)) :
    List (Nat × List (Keyword × MatchResult)) :=
  match m with
  | [] => [(key, vals)]
  | (k, vs) :: rest =>
    if k = key then (k, vs ++ vals) :: rest
    else (k, vs) :: insertAppend rest key vals

/-- One iteration of the grouping loop of `process_content`: run the
matcher for one (client, keyword) pair and record the results under the
client's key. -/
def group_step (normalized : NormalizedResult)
    (acc : List (Nat × List (Keyword × MatchResult)))
    (ck : Nat × Keyword) : List (Nat × List (Keyword × MatchResult)) :=
  if find_matches normalized (keyword_to_config ck.2) ≠ [] then
    insertAppend acc ck.1
      ((find_matches normalized (keyword_to_config ck.2)).map
        (fun r => (ck.2, r)))
  else acc

/-- The `client_matches` grouping of `process_content`. -/
def group_client_matches (normalized : NormalizedResult)
    (relevant : List (Nat × Keyword)) :
    List (Nat × List (Keyword × MatchResult)) :=
  relevant.foldl (group_step normalized) []

/-- `MatchEngine.process_content`: all `Match` rows created for one
content item.  Python's set of distinct matched phrases is modelled by
`dedup` (its iteration order is unspecified in Python; no claim depends
on it). -/
def process_content (db : MatchDb) (content : RedditContent) (now : Nat) :
    List MatchRow :=
  if get_relevant_keywords db content.subreddit = [] then []
  else
    (group_client_matches (engine_normalized content)
        (get_relevant_keywords db content.subreddit)).flatMap
      (fun group =>
        group.2.map (fun kr =>
          create_match_record kr.1.client_id kr.1 content kr.2
            (((group.2.map (fun p => p.2.matched_phrase)).dedup).filter
              (· ≠ kr.2.matched_phrase)) now))

/-! ### C1: which keyword rules the engine consults -/

/-- Every pair returned by `_get_relevant_keywords` carries a keyword of
the database that is `is_active` — and nothing more is checked. -/
theorem relevant_keyword_active (db : MatchDb) (subreddit : Str) :
    ∀ ck ∈ get_relevant_keywords db subreddit,
      ck.2 ∈ db.keywords ∧ ck.2.is_active = true := by
  intro ck hck
  simp only [get_relevant_keywords, List.mem_flatMap, List.mem_map,
    List.mem_filter, decide_eq_true_eq] at hck
  obtain ⟨sub, -, k, hk, rfl⟩ := hck
  exact ⟨hk.1, hk.2.2⟩

/-- A keyword-level invariant survives `insertAppend`. -/
theorem insertAppend_forall {P : Keyword → Prop} (key : Nat)
    (vals : List (Keyword × MatchResult)) :
    ∀ acc, (∀ g ∈ acc, ∀ kr ∈ g.2, P kr.1) → (∀ kr ∈ vals, P kr.1) →
      ∀ g ∈ insertAppend acc key vals, ∀ kr ∈ g.2, P kr.1 := by
  intro acc
  induction acc with
  | nil =>
    intro _ hv g hg kr hkr
    rw [insertAppend, List.mem_singleton] at hg
    subst hg
    exact hv kr hkr
  | cons p rest ih =>
    intro hacc hv g hg kr hkr
    obtain ⟨k, vs⟩ := p
    rw [insertAppend] at hg
    by_cases hk : k = key
    · rw [if_pos hk] at hg
      rcases List.mem_cons.mp hg with hg | hg
      · subst hg
        rcases List.mem_append.mp hkr with h | h
        · exact hacc (k, vs) (List.mem_cons_self _ _) kr h
        · exact hv kr h
      · exact hacc g (List.mem_cons_of_mem _ hg) kr hkr
    · rw [if_neg hk] at hg
      rcases List.mem_cons.mp hg with hg | hg
      · subst hg
        exact hacc (k, vs) (List.mem_cons_self _ _) kr hkr
      · exact ih (fun g' hg' => hacc g' (List.mem_cons_of_mem _ hg')) hv
          g hg kr hkr

/-- Every keyword recorded by the grouping fold came from the
`relevant` list. -/
theorem group_fold_forall {P : Keyword → Prop} (nz : NormalizedResult) :
    ∀ (relevant : List (Nat × Keyword))
      (acc : List (Nat × List (Keyword × MatchResult))),
      (∀ g ∈ acc, ∀ kr ∈ g.2, P kr.1) →
      (∀ ck ∈ relevant, P ck.2) →
      ∀ g ∈ relevant.foldl (group_step nz) acc, ∀ kr ∈ g.2, P kr.1 := by
  intro relevant
  induction relevant with
  | nil => intro acc hacc _; exact hacc
  | cons ck rest ih =>
    intro acc hacc hrel
    rw [List.foldl_cons]
    refine ih (group_step nz acc ck) ?_
      (fun ck' h => hrel ck' (List.mem_cons_of_mem _ h))
    rw [group_step]
    split
    · exact insertAppend_forall ck.1 _ acc hacc (by
        intro kr hkr
        rw [List.mem_map] at hkr
        obtain ⟨r, -, rfl⟩ := hkr
        exact hrel ck (List.mem_cons_self _ _))
    · exact hacc

/-- A database with one active monitor of `sub` for client 1 and one
keyword rule that is `is_active` but silenced until time 1000. -/
def silencedDb : MatchDb :=
  { subreddits :=
      [{ client_id := 1, name := "sub".toList, status := "active".toList }]
    keywords :=
      [{ id := 5, client_id := 1, phrases := ["arb".toList],
         is_active := true, silenced_until := some 1000 }] }

/-- A content item in `sub` whose normalized text contains the silenced
rule's phrase. -/
def silencedContent : RedditContent :=
  { id := 7, reddit_id := "abc".toList, subreddit := "sub".toList,
    content_type := "post".toList, body := "arb".toList,
    author := "u".toList, normalized_text := "arb".toList }

/-- C1 counterexample: at time `now = 0`, rule 5 is silenced until 1000
(and `is_active`), yet `process_content` still creates a Match row for
it — `_get_relevant_keywords` never consults `silenced_until`. -/
theorem silenced_rule_still_matches :
    (silencedDb.keywords.map
      (fun k => (k.is_active, k.silenced_until))) = [(true, some 1000)] ∧
    ((process_content silencedDb silencedContent 0).map
      (fun m => m.keyword_id)) = [5] := by
  constructor
  · rfl
  · decide

/-- C1 (amended): the Match Engine filters keyword rules on `is_active`
alone; every Match row it creates belongs to an `is_active` rule of the
database, regardless of that rule's `silenced_until`. -/
theorem process_content_active_only (db : MatchDb)
    (content : RedditContent) (now : Nat) :
    ∀ m ∈ process_content db content now,
      (db.keywords.filter
        (fun k => k.is_active = true ∧ k.id = m.keyword_id ∧
          k.client_id = m.client_id)) ≠ [] := by
  intro m hm
  rw [process_content] at hm
  split at hm
  · exact absurd hm (List.not_mem_nil m)
  · simp only [List.mem_flatMap, List.mem_map] at hm
    obtain ⟨g, hg, kr, hkr, rfl⟩ := hm
    rw [group_client_matches] at hg
    have hP := group_fold_forall
      (P := fun k => k ∈ db.keywords ∧ k.is_active = true)
      (engine_normalized content) (get_relevant_keywords db content.subreddit)
      [] (fun g' hg' => absurd hg' (List.not_mem_nil g'))
      (relevant_keyword_active db content.subreddit) g hg kr hkr
    intro hnil
    have hmem : kr.1 ∈ db.keywords.filter
        (fun k => k.is_active = true ∧
          k.id = (create_match_record kr.1.client_id kr.1 content kr.2
            ((((g.2.map (fun p => p.2.matched_phrase)).dedup).filter
              (· ≠ kr.2.matched_phrase))) now).keyword_id ∧
          k.client_id = (create_match_record kr.1.client_id kr.1 content kr.2
            ((((g.2.map (fun p => p.2.matched_phrase)).dedup).filter
              (· ≠ kr.2.matched_phrase))) now).client_id) := by
      rw [List.mem_filter]
      exact ⟨hP.1, by simp [create_match_record, hP.2]⟩
    rw [hnil] at hmem
    exact absurd hmem (List.not_mem_nil _)

/-- Witness for `process_content_active_only` at the silenced-rule
database: the created row's rule (id 5, client 1) is an active keyword
of the database. -/
theorem process_content_active_only_witness :
    (silencedDb.keywords.filter
      (fun k => k.is_active = true ∧
        k.id = ((process_content silencedDb silencedContent 0).headD
          default).keyword_id ∧
        k.client_id = ((process_content silencedDb silencedContent 0).headD
          default).client_id)) ≠ [] :=
  process_content_active_only silencedDb silencedContent 0
    ((process_content silencedDb silencedContent 0).headD default)
    (by decide)

/-! ### C2: one Match row per matcher occurrence -/

/-- Total number of (keyword, result) pairs recorded in the grouping
structure. -/
def countCM (acc : List (Nat × List (Keyword × MatchResult))) : Nat :=
  (acc.map (fun g => g.2.length)).sum

/-- `insertAppend` adds exactly the appended values to the total. -/
theorem insertAppend_count (key : Nat)
    (vals : List (Keyword × MatchResult)) :
    ∀ acc, countCM (insertAppend acc key vals) =
      countCM acc + vals.length := by
  intro acc
  induction acc with
  | nil => simp [insertAppend, countCM]
  | cons p rest ih =>
    obtain ⟨k, vs⟩ := p
    rw [insertAppend]
    by_cases hk : k = key
    · rw [if_pos hk]
      simp only [countCM, List.map_cons, List.sum_cons, List.length_append]
      omega
    · rw [if_neg hk]
      simp only [countCM, List.map_cons, List.sum_cons] at ih ⊢
      omega

/-- The grouping fold records exactly one pair per matcher result. -/
theorem group_fold_count (nz : NormalizedResult) :
    ∀ (relevant : List (Nat × Keyword))
      (acc : List (Nat × List (Keyword × MatchResult))),
      countCM (relevant.foldl (group_step nz) acc) =
        countCM acc +
          ((relevant.map (fun ck =>
            (find_matches nz (keyword_to_config ck.2)).length)).sum) := by
  intro relevant
  induction relevant with
  | nil => intro acc; simp
  | cons ck rest ih =>
    intro acc
    rw [List.foldl_cons, ih, List.map_cons, List.sum_cons, group_step]
    split
    · rw [insertAppend_count]
      simp only [List.length_map]
      omega
    · rename_i hres
      rw [not_not] at hres
      rw [hres]
      simp

/-- Length of a `flatMap` is the sum of the image lengths. -/
theorem flatMap_length_sum {α β : Type} (f : α → List β) :
    ∀ l : List α, (l.flatMap f).length = (l.map (fun a => (f a).length)).sum := by
  intro l
  induction l with
  | nil => rfl
  | cons a l ih => simp [List.flatMap_cons, ih]

/-- C2 (amended): the engine stores one Match row per matcher
occurrence: the number of rows created for one content item equals the
sum, over all relevant (client, keyword) pairs, of the number of
`MatchResult`s the matcher returns — several occurrences of a rule in
the same item yield several rows for the same (tenant, rule, content)
triple. -/
theorem process_content_row_count (db : MatchDb)
    (content : RedditContent) (now : Nat) :
    (process_content db content now).length =
      ((get_relevant_keywords db content.subreddit).map
        (fun ck => (find_matches (engine_normalized content)
          (keyword_to_config ck.2)).length)).sum := by
  rw [process_content]
  split
  · rename_i h
    rw [h]
    simp
  · rw [flatMap_length_sum, group_client_matches]
    have hc := group_fold_count (engine_normalized content)
      (get_relevant_keywords db content.subreddit) []
    simp only [List.length_map]
    simpa [countCM] using hc

/-- A database with one active monitor of `sub` for client 1 and one
ordinary active keyword rule. -/
def doubleDb : MatchDb :=
  { subreddits :=
      [{ client_id := 1, name := "sub".toList, status := "active".toList }]
    keywords := [{ id := 2, client_id := 1, phrases := ["arb".toList] }] }

/-- A content item in `sub` whose text contains the phrase twice. -/
def doubleContent : RedditContent :=
  { id := 9, reddit_id := "d1".toList, subreddit := "sub".toList,
    content_type := "post".toList, body := "arb x arb".toList,
    author := "u".toList, normalized_text := "arb x arb".toList }

/-- C2 counterexample: the phrase `"arb"` occurs twice in the item, and
the engine stores two Match rows for the single (tenant 1, rule 2,
content 9) triple — not at most one. -/
theorem two_rows_per_triple :
    ((process_content doubleDb doubleContent 0).filter
      (fun m => m.client_id = 1 ∧ m.keyword_id = 2 ∧
        m.content_id = 9)).length = 2 := by
  decide

/-! ## Alert dispatcher (`app/services/alert_dispatcher.py`) -/

def BATCH_THRESHOLD : Nat := 3
def BATCH_WINDOW_SECONDS : Nat := 120
def MAX_RETRIES : Nat := 3
def INITIAL_BACKOFF : Nat := 1

/-- `WebhookConfig` row (`app/models/webhooks.py`): the fields the
dispatcher reads. -/
structure WebhookCfg where
  client_id : Nat
  url : Str
  is_active : Bool := true
  is_primary : Bool := false
deriving Repr, DecidableEq

/-- `AlertBatch` dataclass. -/
structure AlertBatch where
  client_id : Nat
  webhook_url : Str
  «matches» : List MatchRow := []
  is_batch : Bool := false
deriving Repr, DecidableEq

/-- `AlertDispatcher._get_webhook_url`: the first active primary webhook
of the client, else the first active one (`.first()` returns the first
row, modelled by list order). -/
def get_webhook_url (webhooks : List WebhookCfg) (client_id : Nat) :
    Option Str :=
  match webhooks.find?
      (fun w => w.client_id = client_id ∧ w.is_active = true ∧
        w.is_primary = true) with
  | some w => some w.url
  | none =>
    match webhooks.find?
        (fun w => w.client_id = client_id ∧ w.is_active = true) with
    | some w => some w.url
    | none => none

/-- Insert into a sorted list, before the first element not strictly
smaller (keeps equal keys in input order). -/
def insert_by {α : Type} (le : α → α → Bool) (x : α) :
    List α → List α
  | [] => [x]
  | y :: ys => if le x y then x :: y :: ys else y :: insert_by le x ys

/-- Stable insertion sort, modelling the SQL `ORDER BY`. -/
def sort_by {α : Type} (le : α → α → Bool) : List α → List α
  | [] => []
  | x :: xs => insert_by le x (sort_by le xs)

/-- `AlertDispatcher._get_pending_matches`: matches with pending status,
ordered by `detected_at` (a stable sort). -/
def get_pending_matches (ms : List MatchRow) : List MatchRow :=
  sort_by (fun a b => a.detected_at ≤ b.detected_at)
    (ms.filter (fun m => m.alert_status = AlertStatus.pending))

/-- The keys of a list in first-occurrence order (Python dict insertion
order of the `by_client` grouping). -/
def firstKeys (l : List Nat) : List Nat :=
  l.foldl (fun acc x => if x ∈ acc then acc else acc ++ [x]) []

/-- The batches produced for one client group (`_batch_matches` loop
body): skipped entirely without a webhook URL, one batched message when
count ≥ `BATCH_THRESHOLD` and the `detected_at` span is at most
`BATCH_WINDOW_SECONDS`, else one individual message per match. -/
def client_batches (webhooks : List WebhookCfg) (ms : List MatchRow)
    (cid : Nat) : List AlertBatch :=
  match get_webhook_url webhooks cid with
  | none => []
  | some url =>
    if BATCH_THRESHOLD ≤
          (ms.filter (fun m => m.client_id = cid)).length ∧
        listMax ((ms.filter (fun m => m.client_id = cid)).map
            (fun m => m.detected_at)) -
          listMin ((ms.filter (fun m => m.client_id = cid)).map
            (fun m => m.detected_at)) ≤ BATCH_WINDOW_SECONDS then
      [{ client_id := cid, webhook_url := url,
         «matches» := ms.filter (fun m => m.client_id = cid),
         is_batch := true }]
    else
      (ms.filter (fun m => m.client_id = cid)).map
        (fun m =>
          { client_id := cid, webhook_url := url, «matches» := [m],
            is_batch := false })

/-- `AlertDispatcher._batch_matches`. -/
def batch_matches (webhooks : List WebhookCfg)
    (ms : List MatchRow) : List AlertBatch :=
  (firstKeys (ms.map (fun m => m.client_id))).flatMap
    (client_batches webhooks ms)

/-- Success test of one POST response (`status_code in (200, 204)`);
`none` models a transport error (`httpx.HTTPError`). -/
def isSuccessStatus (resp : Option Nat) : Bool :=
  resp = some 200 || resp = some 204

/-- The retry loop of `_send_webhook`, over the list of remaining
attempt numbers.  `responses attempt` is the HTTP status of that
attempt's POST.  Returns (success, attempts posted, sleep durations);
a failed non-final attempt sleeps `backoff` seconds and doubles it. -/
def send_webhook_go (responses : Nat → Option Nat) :
    List Nat → Nat → Bool × List Nat × List Nat
  | [], _ => (false, [], [])
  | attempt :: rest, backoff =>
    if isSuccessStatus (responses attempt) then (true, [attempt], [])
    else
      (fun r => (r.1, attempt :: r.2.1,
          (if rest = [] then [] else [backoff]) ++ r.2.2))
        (send_webhook_go responses rest (backoff * 2))

/-- `AlertDispatcher._send_webhook`: attempts `1 .. MAX_RETRIES`,
starting from `INITIAL_BACKOFF`. -/
def send_webhook (responses : Nat → Option Nat) :
    Bool × List Nat × List Nat :=
  send_webhook_go responses (List.range' 1 MAX_RETRIES) INITIAL_BACKOFF

/-- The dispatcher's database state: the matches table and webhook
configs. -/
structure DispatchDb where
  «matches» : List MatchRow
  webhooks : List WebhookCfg
deriving Repr, DecidableEq

/-- The summary dict returned by `dispatch_pending`. -/
structure DispatchSummary where
  sent : Nat
  failed : Nat
  total : Nat
deriving Repr, DecidableEq

/-- Ids of the matches in batches whose webhook delivery succeeds
(`send` abstracts `_send_webhook` on the formatted payload; formatting
affects no claim). -/
def dispatch_sent_ids (db : DispatchDb) (send : AlertBatch → Bool) :
    List Nat :=
  ((batch_matches db.webhooks (get_pending_matches db.matches)).filter
      (fun b => send b)).flatMap (fun b => b.matches.map (fun m => m.id))

/-- Ids of the matches in batches whose webhook delivery fails. -/
def dispatch_failed_ids (db : DispatchDb) (send : AlertBatch → Bool) :
    List Nat :=
  ((batch_matches db.webhooks (get_pending_matches db.matches)).filter
      (fun b => !send b)).flatMap (fun b => b.matches.map (fun m => m.id))

/-- The per-row session mutation of `dispatch_pending`: rows of
successful batches become `sent` with `alert_sent_at = now`; rows of
failed batches become `failed` (`_handle_failure` never touches
`alert_sent_at`); all other rows are untouched. -/
def dispatch_update (db : DispatchDb) (send : AlertBatch → Bool)
    (now : Nat) (m : MatchRow) : MatchRow :=
  if m.id ∈ dispatch_sent_ids db send then
    { m with alert_status := AlertStatus.sent, alert_sent_at := some now }
  else if m.id ∈ dispatch_failed_ids db send then
    { m with alert_status := AlertStatus.failed }
  else m

/-- `AlertDispatcher.dispatch_pending`: the updated matches table and
the returned summary (`sent`/`failed` count the matches of
successful/failed batches; `total` is the number of pending matches). -/
def dispatch_pending (db : DispatchDb) (send : AlertBatch → Bool)
    (now : Nat) : List MatchRow × DispatchSummary :=
  if get_pending_matches db.matches = [] then
    (db.matches, { sent := 0, failed := 0, total := 0 })
  else
    (db.matches.map (dispatch_update db send now),
      { sent := (dispatch_sent_ids db send).length
        failed := (dispatch_failed_ids db send).length
        total := (get_pending_matches db.matches).length })

/-! ### C7: retry behaviour of `_send_webhook` -/

/-- C7: with `k` the first successful attempt (or 3 when none
succeeds), `_send_webhook` POSTs exactly attempts `1 .. k` — at most 3;
it sleeps 1 s after the first failed non-final attempt and 2 s after the
second — at most 2 sleeps, none after the final attempt; and it returns
success exactly when one of the (at most 3) attempts returns HTTP 200
or 204. -/
theorem send_webhook_spec (responses : Nat → Option Nat) :
    (send_webhook responses).2.1 =
      [1, 2, 3].take (if isSuccessStatus (responses 1) then 1
        else if isSuccessStatus (responses 2) then 2 else 3) ∧
    (send_webhook responses).2.1.length ≤ 3 ∧
    (send_webhook responses).2.2 =
      [1, 2].take ((if isSuccessStatus (responses 1) then 1
        else if isSuccessStatus (responses 2) then 2 else 3) - 1) ∧
    (send_webhook responses).2.2.length ≤ 2 ∧
    ((send_webhook responses).1 = true ↔
      (isSuccessStatus (responses 1) = true ∨
        isSuccessStatus (responses 2) = true ∨
        isSuccessStatus (responses 3) = true)) := by
  have hr : List.range' 1 MAX_RETRIES = [1, 2, 3] := rfl
  rw [send_webhook, hr]
  cases h1 : isSuccessStatus (responses 1) <;>
    cases h2 : isSuccessStatus (responses 2) <;>
      cases h3 : isSuccessStatus (responses 3) <;>
        simp [send_webhook_go, h1, h2, h3, INITIAL_BACKOFF]

/-! ### Batching lemmas shared by the dispatcher claims -/

/-- `client_batches` unfolding: a client without a webhook URL is
skipped. -/
theorem client_batches_none (webhooks : List WebhookCfg)
    (ms : List MatchRow) (cid : Nat)
    (h : get_webhook_url webhooks cid = none) :
    client_batches webhooks ms cid = [] := by
  rw [client_batches, h]

/-- `client_batches` unfolding at a client that has a webhook URL. -/
theorem client_batches_some (webhooks : List WebhookCfg)
    (ms : List MatchRow) (cid : Nat) (url : Str)
    (h : get_webhook_url webhooks cid = some url) :
    client_batches webhooks ms cid =
      (if BATCH_THRESHOLD ≤
            (ms.filter (fun m => m.client_id = cid)).length ∧
          listMax ((ms.filter (fun m => m.client_id = cid)).map
              (fun m => m.detected_at)) -
            listMin ((ms.filter (fun m => m.client_id = cid)).map
              (fun m => m.detected_at)) ≤ BATCH_WINDOW_SECONDS then
        [{ client_id := cid, webhook_url := url,
           «matches» := ms.filter (fun m => m.client_id = cid),
           is_batch := true }]
      else
        (ms.filter (fun m => m.client_id = cid)).map
          (fun m =>
            { client_id := cid, webhook_url := url, «matches» := [m],
              is_batch := false })) := by
  rw [client_batches, h]

/-- Every batch of a client group carries that client's id. -/
theorem client_batches_client (webhooks : List WebhookCfg)
    (ms : List MatchRow) (cid : Nat) :
    ∀ b ∈ client_batches webhooks ms cid, b.client_id = cid := by
  intro b hb
  rcases h : get_webhook_url webhooks cid with _ | url
  · rw [client_batches_none webhooks ms cid h] at hb
    exact absurd hb (List.not_mem_nil b)
  · rw [client_batches_some webhooks ms cid url h] at hb
    split at hb
    · rw [List.mem_singleton] at hb
      subst hb
      rfl
    · rw [List.mem_map] at hb
      obtain ⟨m, -, rfl⟩ := hb
      rfl

/-- Every batch produced by `_batch_matches` carries its client's
webhook URL, and its matches all belong to that client and come from
the input list. -/
theorem batch_matches_sound (webhooks : List WebhookCfg)
    (ms : List MatchRow) :
    ∀ b ∈ batch_matches webhooks ms,
      get_webhook_url webhooks b.client_id = some b.webhook_url ∧
      ∀ x ∈ b.matches, x.client_id = b.client_id ∧ x ∈ ms := by
  intro b hb
  rw [batch_matches, List.mem_flatMap] at hb
  obtain ⟨cid, -, hb⟩ := hb
  rcases h : get_webhook_url webhooks cid with _ | url
  · rw [client_batches_none webhooks ms cid h] at hb
    exact absurd hb (List.not_mem_nil b)
  · rw [client_batches_some webhooks ms cid url h] at hb
    split at hb
    · rw [List.mem_singleton] at hb
      subst hb
      refine ⟨h, ?_⟩
      intro x hx
      have hx' := List.mem_filter.mp hx
      exact ⟨of_decide_eq_true hx'.2, hx'.1⟩
    · rw [List.mem_map] at hb
      obtain ⟨m, hm, rfl⟩ := hb
      have hm' := List.mem_filter.mp hm
      refine ⟨h, ?_⟩
      intro x hx
      rw [List.mem_singleton] at hx
      subst hx
      exact ⟨of_decide_eq_true hm'.2, hm'.1⟩

/-- Membership is invariant under `insert_by`. -/
theorem mem_insert_by {α : Type} (le : α → α → Bool) (x a : α) :
    ∀ l, (a ∈ insert_by le x l ↔ a = x ∨ a ∈ l) := by
  intro l
  induction l with
  | nil => simp [insert_by]
  | cons y ys ih =>
    rw [insert_by]
    split
    · simp
    · rw [List.mem_cons, ih, List.mem_cons]
      tauto

/-- Membership is invariant under `sort_by`. -/
theorem mem_sort_by {α : Type} (le : α → α → Bool) (a : α) :
    ∀ l, (a ∈ sort_by le l ↔ a ∈ l) := by
  intro l
  induction l with
  | nil => simp [sort_by]
  | cons x xs ih =>
    rw [sort_by, mem_insert_by, ih, List.mem_cons]

/-- Membership in `_get_pending_matches`: precisely the pending rows of
the table. -/
theorem mem_get_pending (ms : List MatchRow) (x : MatchRow) :
    x ∈ get_pending_matches ms ↔
      x ∈ ms ∧ x.alert_status = AlertStatus.pending := by
  simp [get_pending_matches, mem_sort_by, List.mem_filter]

/-- Every id of a batched match lands in the success ids or the failure
ids, according to the delivery outcome of its batch. -/
theorem batch_ids_covered (batches : List AlertBatch)
    (send : AlertBatch → Bool) (i : Nat)
    (hv : i ∈ batches.flatMap (fun b => b.matches.map (fun x => x.id))) :
    i ∈ (batches.filter (fun b => send b)).flatMap
        (fun b => b.matches.map (fun x => x.id)) ∨
      i ∈ (batches.filter (fun b => !send b)).flatMap
        (fun b => b.matches.map (fun x => x.id)) := by
  rw [List.mem_flatMap] at hv
  obtain ⟨b, hb, hib⟩ := hv
  by_cases hs : send b = true
  · exact Or.inl (List.mem_flatMap.mpr
      ⟨b, List.mem_filter.mpr ⟨hb, hs⟩, hib⟩)
  · exact Or.inr (List.mem_flatMap.mpr
      ⟨b, List.mem_filter.mpr ⟨hb, by simp [hs]⟩, hib⟩)

/-- `dispatch_update` never changes a row's id. -/
theorem dispatch_update_id (db : DispatchDb) (send : AlertBatch → Bool)
    (now : Nat) (m : MatchRow) :
    (dispatch_update db send now m).id = m.id := by
  rw [dispatch_update]
  split
  · rfl
  · split <;> rfl

/-! ### C6: post-dispatch status/timestamp consistency -/

/-- C6: assuming distinct row ids and the engine invariant that pending
rows have no `alert_sent_at`, every match the dispatcher attempted (one
that landed in some batch of the tick) ends in exactly one of the two
states `sent ∧ alert_sent_at ≠ null` or `failed ∧ alert_sent_at =
null`, and no attempted match remains pending. -/
theorem dispatch_attempted_consistent (db : DispatchDb)
    (send : AlertBatch → Bool) (now : Nat)
    (hids : (db.matches.map (fun m => m.id)).Nodup)
    (hpend : ∀ m ∈ db.matches,
      m.alert_status = AlertStatus.pending → m.alert_sent_at = none) :
    ∀ m ∈ (dispatch_pending db send now).1,
      m.id ∈ (batch_matches db.webhooks
          (get_pending_matches db.matches)).flatMap
          (fun b => b.matches.map (fun x => x.id)) →
      (((m.alert_status = AlertStatus.sent ∧ m.alert_sent_at ≠ none) ∧
          ¬(m.alert_status = AlertStatus.failed ∧
            m.alert_sent_at = none)) ∨
        ((m.alert_status = AlertStatus.failed ∧ m.alert_sent_at = none) ∧
          ¬(m.alert_status = AlertStatus.sent ∧
            m.alert_sent_at ≠ none))) ∧
      m.alert_status ≠ AlertStatus.pending := by
  intro m hm hatt
  by_cases hp : get_pending_matches db.matches = []
  · exfalso
    rw [hp] at hatt
    simp [batch_matches, firstKeys] at hatt
  · rw [dispatch_pending, if_neg hp] at hm
    simp only [List.mem_map] at hm
    obtain ⟨m₀, hm₀, rfl⟩ := hm
    rw [dispatch_update_id] at hatt
    by_cases hs : m₀.id ∈ dispatch_sent_ids db send
    · rw [dispatch_update, if_pos hs]
      refine ⟨Or.inl ⟨⟨rfl, by simp⟩, ?_⟩, by simp⟩
      rintro ⟨hbad, -⟩
      exact absurd hbad (by simp)
    · have hf : m₀.id ∈ dispatch_failed_ids db send := by
        rcases batch_ids_covered _ send m₀.id hatt with h | h
        · exact absurd h hs
        · exact h
      rw [dispatch_update, if_neg hs, if_pos hf]
      have hnone : m₀.alert_sent_at = none := by
        rw [dispatch_failed_ids, List.mem_flatMap] at hf
        obtain ⟨b, hbf, hib⟩ := hf
        rw [List.mem_map] at hib
        obtain ⟨x, hxb, hxid⟩ := hib
        have hbB := (List.mem_filter.mp hbf).1
        obtain ⟨-, hall⟩ := batch_matches_sound db.webhooks _ b hbB
        obtain ⟨-, hxp⟩ := hall x hxb
        rw [mem_get_pending] at hxp
        have hxm : x = m₀ :=
          List.inj_on_of_nodup_map hids hxp.1 hm₀ hxid
        rw [← hxm]
        exact hpend x hxp.1 hxp.2
      refine ⟨Or.inr ⟨⟨rfl, hnone⟩, ?_⟩, by simp⟩
      rintro ⟨hbad, -⟩
      exact absurd hbad (by simp)

/-- A pending match row of client 1 used in the dispatcher examples. -/
def baseRow : MatchRow :=
  { id := 1, client_id := 1, keyword_id := 1, content_id := 1,
    content_type := "post".toList, subreddit := "s".toList,
    matched_phrase := "k".toList, also_matched := [], snippet := [],
    full_text := [], proximity_score := 1, reddit_url := [],
    reddit_author := "u".toList, is_deleted := false, detected_at := 0,
    alert_status := AlertStatus.pending, alert_sent_at := none }

/-- A dispatcher state with one pending match and an active primary
webhook for its client. -/
def dbOneHook : DispatchDb :=
  { «matches» := [baseRow]
    webhooks := [{ client_id := 1, url := "https://h".toList,
                   is_active := true, is_primary := true }] }

/-- `baseRow` after a successful delivery at time 5. -/
def sentResultRow : MatchRow :=
  { baseRow with alert_status := AlertStatus.sent,
                 alert_sent_at := some 5 }

/-- Witness for `dispatch_attempted_consistent`: in a tick over
`dbOneHook` where every delivery succeeds, the attempted row ends as
`sent` with a timestamp and in no other state. -/
theorem dispatch_attempted_consistent_witness :
    (((sentResultRow.alert_status = AlertStatus.sent ∧
          sentResultRow.alert_sent_at ≠ none) ∧
        ¬(sentResultRow.alert_status = AlertStatus.failed ∧
          sentResultRow.alert_sent_at = none)) ∨
      ((sentResultRow.alert_status = AlertStatus.failed ∧
          sentResultRow.alert_sent_at = none) ∧
        ¬(sentResultRow.alert_status = AlertStatus.sent ∧
          sentResultRow.alert_sent_at ≠ none))) ∧
    sentResultRow.alert_status ≠ AlertStatus.pending :=
  dispatch_attempted_consistent dbOneHook (fun _ => true) 5 (by decide)
    (by decide) sentResultRow (by decide) (by decide)

/-! ### C10: clients without a webhook -/

/-- C10: assuming distinct row ids, a pending match of a client with no
active webhook is left in place completely unmodified by the tick
(status still pending, `alert_sent_at` still null), yet the returned
`total` still counts every pending match — so `sent + failed` can fall
short of `total`. -/
theorem dispatch_no_webhook_frame (db : DispatchDb)
    (send : AlertBatch → Bool) (now : Nat)
    (hids : (db.matches.map (fun m => m.id)).Nodup) :
    (∀ i : Nat, ∀ m : MatchRow, db.matches[i]? = some m →
      m.alert_status = AlertStatus.pending →
      get_webhook_url db.webhooks m.client_id = none →
      (dispatch_pending db send now).1[i]? = some m) ∧
    (dispatch_pending db send now).2.total =
      (get_pending_matches db.matches).length := by
  constructor
  · intro i m him hpend hnw
    rw [dispatch_pending]
    split
    · exact him
    · have hm : m ∈ db.matches := List.getElem?_mem him
      have hkey : ∀ bs : AlertBatch → Bool,
          m.id ∈ (((batch_matches db.webhooks
            (get_pending_matches db.matches)).filter bs).flatMap
            (fun b => b.matches.map (fun x => x.id))) → False := by
        intro bs hmem
        rw [List.mem_flatMap] at hmem
        obtain ⟨b, hb, hx⟩ := hmem
        rw [List.mem_map] at hx
        obtain ⟨x, hxb, hxid⟩ := hx
        have hbB := (List.mem_filter.mp hb).1
        obtain ⟨hurl, hall⟩ := batch_matches_sound db.webhooks _ b hbB
        obtain ⟨hxc, hxp⟩ := hall x hxb
        rw [mem_get_pending] at hxp
        have hxm : x = m := List.inj_on_of_nodup_map hids hxp.1 hm hxid
        rw [hxm] at hxc
        rw [hxc] at hnw
        rw [hnw] at hurl
        exact Option.noConfusion hurl
      have hupd : dispatch_update db send now m = m := by
        rw [dispatch_update,
          if_neg (show m.id ∉ dispatch_sent_ids db send from
            fun h => hkey (fun b => send b) h),
          if_neg (show m.id ∉ dispatch_failed_ids db send from
            fun h => hkey (fun b => !send b) h)]
      simp only [List.getElem?_map, him, Option.map_some', hupd]
  · rw [dispatch_pending]
    split
    · rename_i hp
      rw [hp]
      rfl
    · rfl

/-- A pending match whose client (id 2) has no webhook row at all. -/
def orphanRow : MatchRow := { baseRow with id := 9, client_id := 2 }

/-- A dispatcher state holding only `orphanRow`, with an empty webhook
table. -/
def dbNoHook : DispatchDb := { «matches» := [orphanRow], webhooks := [] }

/-- Witness for `dispatch_no_webhook_frame`: the orphan pending match
survives the tick untouched at its position, `total` is 1, and
`sent + failed = 0 < 1 = total`. -/
theorem dispatch_no_webhook_frame_witness :
    (dispatch_pending dbNoHook (fun _ => true) 5).1[0]? = some orphanRow ∧
    (dispatch_pending dbNoHook (fun _ => true) 5).2.total = 1 ∧
    (dispatch_pending dbNoHook (fun _ => true) 5).2.sent +
        (dispatch_pending dbNoHook (fun _ => true) 5).2.failed <
      (dispatch_pending dbNoHook (fun _ => true) 5).2.total :=
  ⟨(dispatch_no_webhook_frame dbNoHook (fun _ => true) 5 (by decide)).1
      0 orphanRow (by decide) (by decide) (by decide),
    by decide, by decide⟩

/-! ### C8: the batching rule -/

/-- Membership in the first-occurrence key fold. -/
theorem firstKeys_go_mem (c : Nat) :
    ∀ (l acc : List Nat),
      (c ∈ l.foldl
          (fun acc x => if x ∈ acc then acc else acc ++ [x]) acc ↔
        c ∈ acc ∨ c ∈ l) := by
  intro l
  induction l with
  | nil => intro acc; simp
  | cons x xs ih =>
    intro acc
    rw [List.foldl_cons]
    by_cases hx : x ∈ acc
    · rw [if_pos hx, ih, List.mem_cons]
      constructor
      · rintro (h | h)
        · exact Or.inl h
        · exact Or.inr (Or.inr h)
      · rintro (h | h | h)
        · exact Or.inl h
        · exact Or.inl (h ▸ hx)
        · exact Or.inr h
    · rw [if_neg hx, ih, List.mem_append, List.mem_singleton,
        List.mem_cons]
      tauto

/-- The first-occurrence key fold keeps the accumulator duplicate-free. -/
theorem firstKeys_go_nodup :
    ∀ (l acc : List Nat), acc.Nodup →
      (l.foldl
        (fun acc x => if x ∈ acc then acc else acc ++ [x]) acc).Nodup := by
  intro l
  induction l with
  | nil => intro acc h; exact h
  | cons x xs ih =>
    intro acc h
    rw [List.foldl_cons]
    by_cases hx : x ∈ acc
    · rw [if_pos hx]
      exact ih acc h
    · rw [if_neg hx]
      refine ih _ (List.nodup_append.mpr
        ⟨h, List.nodup_singleton x, ?_⟩)
      intro a ha hax
      rw [List.mem_singleton] at hax
      subst hax
      exact hx ha

/-- `firstKeys` lists exactly the values of the input. -/
theorem mem_firstKeys (c : Nat) (l : List Nat) :
    c ∈ firstKeys l ↔ c ∈ l := by
  rw [firstKeys, firstKeys_go_mem]
  simp

/-- `firstKeys` is duplicate-free. -/
theorem firstKeys_nodup (l : List Nat) : (firstKeys l).Nodup :=
  firstKeys_go_nodup l [] List.nodup_nil

/-- A `flatMap` whose function vanishes away from one key `c` collapses
to that key's image. -/
theorem flatMap_single_key {β : Type} (c : Nat) (f : Nat → List β)
    (hf : ∀ x, x ≠ c → f x = []) :
    ∀ keys : List Nat, keys.Nodup →
      keys.flatMap f = if c ∈ keys then f c else [] := by
  intro keys
  induction keys with
  | nil => intro _; simp
  | cons k ks ih =>
    intro hnd
    rw [List.flatMap_cons, ih (List.nodup_cons.mp hnd).2]
    by_cases hk : k = c
    · subst hk
      have hc : k ∉ ks := (List.nodup_cons.mp hnd).1
      rw [if_neg hc, if_pos (List.mem_cons_self _ _)]
      simp
    · rw [hf k hk]
      by_cases hc : c ∈ ks
      · rw [if_pos hc, if_pos (List.mem_cons_of_mem _ hc)]
        simp
      · rw [if_neg hc, if_neg (by
          rw [List.mem_cons]
          rintro (h | h)
          · exact hk h.symm
          · exact hc h)]
        simp

/-- C8 (amended): for a client that has an active webhook, its group of
matches becomes one batched message iff it has at least
`BATCH_THRESHOLD = 3` matches whose `detected_at` span is at most
`BATCH_WINDOW_SECONDS = 120`, and one individual message per match
otherwise; a client with no active webhook is skipped entirely (see the
counterexample), which the original dichotomy omits. -/
theorem batch_matches_client_char (webhooks : List WebhookCfg)
    (ms : List MatchRow) (c : Nat) (url : Str)
    (hurl : get_webhook_url webhooks c = some url) :
    (batch_matches webhooks ms).filter (fun b => b.client_id = c) =
      (if (ms.filter (fun m => m.client_id = c)) = [] then
        ([] : List AlertBatch)
       else if BATCH_THRESHOLD ≤
             (ms.filter (fun m => m.client_id = c)).length ∧
           listMax ((ms.filter (fun m => m.client_id = c)).map
               (fun m => m.detected_at)) -
             listMin ((ms.filter (fun m => m.client_id = c)).map
               (fun m => m.detected_at)) ≤ BATCH_WINDOW_SECONDS then
         [{ client_id := c, webhook_url := url,
            «matches» := ms.filter (fun m => m.client_id = c),
            is_batch := true }]
       else
         (ms.filter (fun m => m.client_id = c)).map
           (fun m =>
             { client_id := c, webhook_url := url, «matches» := [m],
               is_batch := false })) := by
  have hf : ∀ x, x ≠ c →
      (client_batches webhooks ms x).filter
        (fun b => b.client_id = c) = [] := by
    intro x hx
    rw [List.filter_eq_nil_iff]
    intro b hb
    have hbc := client_batches_client webhooks ms x b hb
    simp [hbc, hx]
  have heq := flatMap_single_key c
    (fun a => (client_batches webhooks ms a).filter
      (fun b => b.client_id = c)) hf
    (firstKeys (ms.map (fun m => m.client_id)))
    (firstKeys_nodup (ms.map (fun m => m.client_id)))
  rw [batch_matches, List.filter_flatMap, heq]
  by_cases hmem : c ∈ ms.map (fun m => m.client_id)
  · rw [if_pos ((mem_firstKeys c (ms.map (fun m => m.client_id))).mpr
      hmem)]
    have hne : ms.filter (fun m => m.client_id = c) ≠ [] := by
      rw [List.mem_map] at hmem
      obtain ⟨m, hm, hmc⟩ := hmem
      intro hcontra
      have hmm : m ∈ ms.filter (fun m => m.client_id = c) :=
        List.mem_filter.mpr ⟨hm, by simp [hmc]⟩
      rw [hcontra] at hmm
      exact absurd hmm (List.not_mem_nil m)
    show (client_batches webhooks ms c).filter
        (fun b => b.client_id = c) = _
    rw [if_neg hne, client_batches_some webhooks ms c url hurl]
    by_cases hcond : BATCH_THRESHOLD ≤
        (ms.filter (fun m => m.client_id = c)).length ∧
      listMax ((ms.filter (fun m => m.client_id = c)).map
          (fun m => m.detected_at)) -
        listMin ((ms.filter (fun m => m.client_id = c)).map
          (fun m => m.detected_at)) ≤ BATCH_WINDOW_SECONDS
    · rw [if_pos hcond]
      simp
    · rw [if_neg hcond]
      rw [List.filter_eq_self]
      intro b hb
      rw [List.mem_map] at hb
      obtain ⟨m, -, rfl⟩ := hb
      simp
  · rw [if_neg (fun h => hmem
      ((mem_firstKeys c (ms.map (fun m => m.client_id))).mp h))]
    have hnil : ms.filter (fun m => m.client_id = c) = [] := by
      rw [List.filter_eq_nil_iff]
      intro m hm hc
      rw [decide_eq_true_eq] at hc
      exact hmem (List.mem_map.mpr ⟨m, hm, hc⟩)
    rw [if_pos hnil]

/-- Three simultaneous pending matches of client 1 (ids 1, 2, 3, all
detected at time 0). -/
def trioRows : List MatchRow :=
  [baseRow, { baseRow with id := 2 }, { baseRow with id := 3 }]

/-- C8 counterexample: client 1 has three pending matches within a 0 s
span — the claimed batching condition holds — yet with no webhook rows
`_batch_matches` emits nothing at all: the matches are neither batched
nor sent individually. -/
theorem batch_matches_no_webhook_empty :
    3 ≤ (trioRows.filter (fun m => m.client_id = 1)).length ∧
    listMax ((trioRows.filter (fun m => m.client_id = 1)).map
        (fun m => m.detected_at)) -
      listMin ((trioRows.filter (fun m => m.client_id = 1)).map
        (fun m => m.detected_at)) ≤ 120 ∧
    batch_matches [] trioRows = [] := by
  decide

/-- An active primary webhook for client 1. -/
def hookCfg : WebhookCfg :=
  { client_id := 1, url := "https://h2".toList, is_active := true,
    is_primary := true }

/-- Witness for `batch_matches_client_char`: with a webhook configured,
the three simultaneous matches of client 1 become one batched message. -/
theorem batch_matches_client_char_witness :
    (batch_matches [hookCfg] trioRows).filter
        (fun b => b.client_id = 1) =
      [{ client_id := 1, webhook_url := hookCfg.url,
         «matches» := trioRows, is_batch := true }] :=
  (batch_matches_client_char [hookCfg] trioRows 1 hookCfg.url
    (by decide)).trans (by decide)

/-! ## Poller (`app/services/poller.py`) and deduplicator
(`app/services/deduplicator.py`) -/

/-- One raw item dict built by `poll_subreddit` (`title` is `None` for
comments). -/
structure RawItem where
  reddit_id : Str
  subreddit : Str
  content_type : Str
  title : Option Str := none
  body : Str
  author : Str
  reddit_created_at : Nat := 0
deriving Repr, DecidableEq

/-- The stored-content state the poller checks against: existing
content hashes and existing reddit ids. -/
structure ContentDb where
  hashes : List Str := []
  reddit_ids : List Str := []
deriving Repr, DecidableEq

/-- The text composed by `_store_content`: `f"{title} {body}"` when the
title is truthy (non-`None` and non-empty), else the body alone. -/
def compose_raw_text (item : RawItem) : Str :=
  match item.title with
  | some t => if t ≠ [] then t ++ (' ' :: item.body) else item.body
  | none => item.body

/-- `is_duplicate` (`deduplicator.py`): whether the hash is already
stored. -/
def is_duplicate (db : ContentDb) (content_hash : Str) : Bool :=
  content_hash ∈ db.hashes

/-- The `RedditContent` record built by `_store_content` for one
accepted item.  `hashFn` abstracts the SHA-256 hex digest
`compute_content_hash`. -/
def poller_record (hashFn : Str → Str) (item : RawItem) : RedditContent :=
  { reddit_id := item.reddit_id
    subreddit := item.subreddit
    content_type := item.content_type
    title := item.title
    body := item.body
    author := item.author
    normalized_text := (normalize_text (compose_raw_text item)).normalized_text
    content_hash := hashFn (normalize_text (compose_raw_text item)).normalized_text
    reddit_created_at := item.reddit_created_at }

/-- One iteration of the `_store_content` loop; the state is (created
records, `seen_hashes`).  The hash joins `seen_hashes` before the
database checks, exactly as in the source. -/
def store_step (hashFn : Str → Str) (db : ContentDb)
    (acc : List RedditContent × List Str) (item : RawItem) :
    List RedditContent × List Str :=
  if hashFn (normalize_text (compose_raw_text item)).normalized_text ∈ acc.2 then
    acc
  else if is_duplicate db
      (hashFn (normalize_text (compose_raw_text item)).normalized_text) then
    (acc.1, hashFn (normalize_text (compose_raw_text item)).normalized_text :: acc.2)
  else if item.reddit_id ∈ db.reddit_ids then
    (acc.1, hashFn (normalize_text (compose_raw_text item)).normalized_text :: acc.2)
  else
    (acc.1 ++ [poller_record hashFn item],
      hashFn (normalize_text (compose_raw_text item)).normalized_text :: acc.2)

/-- `RedditPoller._store_content`: the list of newly created
`RedditContent` records for a batch of raw items. -/
def store_content (hashFn : Str → Str) (db : ContentDb)
    (raw_items : List RawItem) : List RedditContent :=
  (raw_items.foldl (store_step hashFn db) ([], [])).1

/-- A whitespace-only comment item. -/
def wsOnlyItem : RawItem :=
  { reddit_id := "w1".toList, subreddit := "sub".toList,
    content_type := "comment".toList, title := none,
    body := "   ".toList, author := "u".toList }

/-- C9 counterexample: a whitespace-only comment normalizes to the
empty string, yet `_store_content` still appends a `RedditContent` row
(with empty `normalized_text`) — the loop has no emptiness check.  The
hash function is taken to be the identity; the source's SHA-256 digest
changes nothing here. -/
theorem store_content_keeps_empty_row :
    (normalize_text (compose_raw_text wsOnlyItem)).normalized_text = [] ∧
    ((store_content (fun s => s) {} [wsOnlyItem]).map
      (fun r => r.normalized_text)) = [[]] := by
  constructor
  · decide
  · decide

/-- The `_store_content` fold invariant: every created record's hash is
`hashFn` of its normalized text and is registered in `seen_hashes`, and
the created records carry pairwise-distinct hashes. -/
theorem store_fold_invariant (hashFn : Str → Str) (db : ContentDb) :
    ∀ (items : List RawItem) (acc : List RedditContent × List Str),
      (∀ r ∈ acc.1, r.content_hash = hashFn r.normalized_text ∧
        r.content_hash ∈ acc.2) →
      acc.1.Pairwise (fun a b => a.content_hash ≠ b.content_hash) →
      (∀ r ∈ (items.foldl (store_step hashFn db) acc).1,
        r.content_hash = hashFn r.normalized_text ∧
        r.content_hash ∈ (items.foldl (store_step hashFn db) acc).2) ∧
      (items.foldl (store_step hashFn db) acc).1.Pairwise
        (fun a b => a.content_hash ≠ b.content_hash) := by
  intro items
  induction items with
  | nil => intro acc h1 h2; exact ⟨h1, h2⟩
  | cons item rest ih =>
    intro acc h1 h2
    rw [List.foldl_cons]
    rw [store_step]
    split
    · exact ih acc h1 h2
    · rename_i hseen
      split
      · exact ih _ (fun r hr => ⟨(h1 r hr).1,
          List.mem_cons_of_mem _ (h1 r hr).2⟩) h2
      · split
        · exact ih _ (fun r hr => ⟨(h1 r hr).1,
            List.mem_cons_of_mem _ (h1 r hr).2⟩) h2
        · refine ih _ ?_ ?_
          · intro r hr
            rcases List.mem_append.mp hr with hr | hr
            · exact ⟨(h1 r hr).1,
                List.mem_cons_of_mem _ (h1 r hr).2⟩
            · rw [List.mem_singleton] at hr
              subst hr
              exact ⟨rfl, List.mem_cons_self _ _⟩
          · rw [List.pairwise_append]
            refine ⟨h2, List.pairwise_singleton _ _, ?_⟩
            intro a ha b hb
            rw [List.mem_singleton] at hb
            subst hb
            intro hcontra
            apply hseen
            have hc : a.content_hash =
                hashFn (normalize_text (compose_raw_text item)).normalized_text :=
              hcontra
            rw [← hc]
            exact (h1 a ha).2

/-- A list of pairwise-distinct-hash records all sharing one hash value
has at most one element. -/
theorem pairwise_hash_length_le (v : Str) :
    ∀ l : List RedditContent,
      l.Pairwise (fun a b => a.content_hash ≠ b.content_hash) →
      (∀ r ∈ l, r.content_hash = v) → l.length ≤ 1 := by
  intro l hp hv
  match l with
  | [] => simp
  | [x] => simp
  | x :: y :: rest =>
    exfalso
    have hxy := (List.pairwise_cons.mp hp).1 y (List.mem_cons_self _ _)
    rw [hv x (List.mem_cons_self _ _),
      hv y (List.mem_cons_of_mem _ (List.mem_cons_self _ _))] at hxy
    exact hxy rfl

/-- C9 (amended): `_store_content` performs no emptiness check (see the
counterexample); what the batch dedupe does enforce is that the created
records carry pairwise-distinct content hashes — in particular at most
one record per batch has empty `normalized_text`, since all such
records share the hash of the empty string. -/
theorem store_content_hashes_distinct (hashFn : Str → Str)
    (db : ContentDb) (raw_items : List RawItem) :
    (store_content hashFn db raw_items).Pairwise
      (fun a b => a.content_hash ≠ b.content_hash) ∧
    ((store_content hashFn db raw_items).filter
      (fun r => r.normalized_text = [])).length ≤ 1 := by
  have hinv := store_fold_invariant hashFn db raw_items ([], [])
    (fun r hr => absurd hr (List.not_mem_nil r)) List.Pairwise.nil
  rw [store_content]
  refine ⟨hinv.2, ?_⟩
  refine pairwise_hash_length_le (hashFn []) _
    (List.Pairwise.filter _ hinv.2) ?_
  intro r hr
  have hr' := List.mem_filter.mp hr
  have hhash := (hinv.1 r hr'.1).1
  rw [of_decide_eq_true hr'.2] at hhash
  exact hhash

